import Mathlib

/-!
Verification of the BBF container format implementation (libbbf-rs).

This file gives a shallow embedding, in Lean, of the core of the repository:
the on-disk layout (`format.rs`), the one-shot encoder (`builder.rs`), the
validating zero-copy decoder (`bbf/reader.rs`), the stream decoder
(`src/reader.rs`), the uniffi binding layer (`bbf/bindings.rs`), and the
assembly planner / extraction logic of the `bbfmux` CLI (`main.rs`).

Bytes are modelled as natural numbers reduced modulo 256 at every point the
Rust code reads a `u8`; machine-integer casts (`as u32`, `as u64`) are
modelled by explicit reductions modulo `2 ^ 32` / `2 ^ 64` at the points the
code performs them (serialization sites), and overflow-checked arithmetic
(`checked_add` / `checked_mul`) is modelled by explicit comparisons with
`2 ^ 64`.  The external xxh3 hash (crate `xxhash_rust`) is a parameter
`hash : List Nat -> Nat` of the model; the streaming hasher used by
`finalize` is modelled by applying `hash` to the concatenation of the
hashed byte ranges, which is the defining property of the streaming API.
-/

set_option maxHeartbeats 1000000
set_option maxRecDepth 100000

namespace BBF

/-! ## Generic list helpers -/

/-- Extract the byte range `[a, b)` of `l` (Rust `&l[a..b]`, bounds assumed). -/
def sl (l : List Nat) (a b : Nat) : List Nat := (l.drop a).take (b - a)

/-- Checked slice: Rust `&l[a..b]` panics unless `a <= b <= l.len()`. -/
def sliceChecked (l : List Nat) (a b : Nat) : Option (List Nat) :=
  if a ≤ b ∧ b ≤ l.length then some (sl l a b) else none

/-- Concatenation of a list of byte strings. -/
def concatAll : List (List Nat) → List Nat
  | [] => []
  | x :: xs => x ++ concatAll xs

/-- Association-list lookup, first match wins (models `HashMap::get`). -/
def alookup {α β : Type} [DecidableEq α] (k : α) : List (α × β) → Option β
  | [] => none
  | (k', v) :: rest => if k' = k then some v else alookup k rest

theorem sl_nil (a b : Nat) : sl [] a b = [] := by
  simp [sl]

theorem sl_length (l : List Nat) (a b : Nat) (h : b ≤ l.length) (hab : a ≤ b) :
    (sl l a b).length = b - a := by
  unfold sl
  rw [List.length_take, List.length_drop]
  omega

theorem sl_append_left (l m : List Nat) (a b : Nat) (h : b ≤ l.length) :
    sl (l ++ m) a b = sl l a b := by
  rcases Nat.le_total a b with hab | hab
  · unfold sl
    rw [List.drop_append_of_le_length (by omega)]
    rw [List.take_append_of_le_length (by rw [List.length_drop]; omega)]
  · unfold sl
    simp [Nat.sub_eq_zero_of_le hab]

theorem sl_append_exact (l m : List Nat) :
    sl (l ++ m) l.length (l.length + m.length) = m := by
  unfold sl
  rw [List.drop_append_of_le_length (Nat.le_refl _)]
  simp

theorem concatAll_append (xs ys : List (List Nat)) :
    concatAll (xs ++ ys) = concatAll xs ++ concatAll ys := by
  induction xs with
  | nil => simp [concatAll]
  | cons x xs ih => simp [concatAll, ih]

theorem concatAll_length_const (xs : List (List Nat)) (n : Nat)
    (h : ∀ x ∈ xs, x.length = n) :
    (concatAll xs).length = n * xs.length := by
  induction xs with
  | nil => simp [concatAll]
  | cons x xs ih =>
    simp only [concatAll, List.length_append, List.length_cons]
    rw [h x (List.mem_cons_self x xs), ih (fun y hy => h y (List.mem_cons_of_mem x hy))]
    ring

/-! ## Little-endian byte serialization (Layout, `format.rs`)

All multi-byte integers in the format are little-endian.  `wrLE k v`
produces the `k`-byte little-endian encoding of `v` (mod `2 ^ (8 * k)`, as
storing into a fixed-width field does); `rdLE` decodes, reducing each byte
mod 256 as reading a `u8` does. -/

def wrLE : Nat → Nat → List Nat
  | 0, _ => []
  | k + 1, v => v % 256 :: wrLE k (v / 256)

def rdLE : List Nat → Nat
  | [] => 0
  | b :: bs => b % 256 + 256 * rdLE bs

theorem wrLE_length (k v : Nat) : (wrLE k v).length = k := by
  induction k generalizing v with
  | zero => simp [wrLE]
  | succ k ih => simp [wrLE, ih]

theorem rdLE_wrLE (k v : Nat) : rdLE (wrLE k v) = v % 256 ^ k := by
  induction k generalizing v with
  | zero => simp [wrLE, rdLE, Nat.mod_one]
  | succ k ih =>
    have h1 : v / 256 % 256 ^ k = v % (256 * 256 ^ k) / 256 :=
      (Nat.mod_mul_right_div_self v 256 (256 ^ k)).symm
    have h2 : v % (256 * 256 ^ k) % 256 = v % 256 :=
      Nat.mod_mod_of_dvd v ⟨256 ^ k, rfl⟩
    have h5 : v % 256 % 256 = v % 256 := Nat.mod_mod_of_dvd v (dvd_refl 256)
    simp only [wrLE, rdLE, ih, h1]
    rw [h5, ← h2, Nat.pow_succ, Nat.mul_comm (256 ^ k) 256]
    exact Nat.mod_add_div (v % (256 * 256 ^ k)) 256

theorem rdLE_wrLE_of_lt (k v : Nat) (h : v < 256 ^ k) : rdLE (wrLE k v) = v := by
  rw [rdLE_wrLE, Nat.mod_eq_of_lt h]

theorem rdLE_lt (l : List Nat) : rdLE l < 256 ^ l.length := by
  induction l with
  | nil => simp [rdLE]
  | cons b bs ih =>
    simp only [rdLE, List.length_cons, Nat.pow_succ]
    have hb : b % 256 < 256 := Nat.mod_lt _ (by omega)
    calc b % 256 + 256 * rdLE bs < 256 + 256 * rdLE bs := by omega
    _ ≤ 256 * (rdLE bs + 1) := by ring_nf; omega
    _ ≤ 256 * 256 ^ bs.length := by
        have := ih
        exact Nat.mul_le_mul_left 256 (by omega)
    _ = 256 ^ bs.length * 256 := by ring

/-! ## Planner page ordering (`bbfmux/src/main.rs`, `compare_pages`)

Filenames are modelled as their UTF-8 byte sequences; Rust `String`
comparison is lexicographic on bytes. -/

/-- Natural-number comparison in Rust `Ord` style. -/
def cmpNat (a b : Nat) : Ordering :=
  if a < b then .lt else if b < a then .gt else .eq

/-- Integer comparison in Rust `Ord` style (`i32::cmp`). -/
def cmpInt (a b : Int) : Ordering :=
  if a < b then .lt else if b < a then .gt else .eq

/-- Lexicographic byte-wise comparison, as Rust `String::cmp`. -/
def cmpList : List Nat → List Nat → Ordering
  | [], [] => .eq
  | [], _ :: _ => .lt
  | _ :: _, [] => .gt
  | x :: xs, y :: ys =>
    match cmpNat x y with
    | .eq => cmpList xs ys
    | o => o

/-- Model of `PagePlan` from `bbfmux/src/main.rs`. -/
structure PagePlan where
  path : List Nat
  filename : List Nat
  order : Int
  deriving DecidableEq, Repr

/-- Translation of `compare_pages` from `bbfmux/src/main.rs`: the match arms
are tried in source order. -/
def comparePages (a b : PagePlan) : Ordering :=
  if a.order > 0 ∧ b.order > 0 then cmpInt a.order b.order
  else if a.order > 0 ∧ b.order ≤ 0 then .lt
  else if a.order ≤ 0 ∧ b.order > 0 then .gt
  else if a.order = 0 ∧ b.order = 0 then cmpList a.filename b.filename
  else if a.order = 0 ∧ b.order < 0 then .lt
  else if a.order < 0 ∧ b.order = 0 then .gt
  else cmpInt a.order b.order

/-- Rank class described by the spec: positive ranks first, then zero ranks,
then negative ranks. -/
def rankClass (o : Int) : Nat :=
  if o > 0 then 0 else if o = 0 then 1 else 2

/-- Modelled from the spec: the total order the spec prescribes for the
planner.  Entries are compared first by rank class; within the positive and
negative classes ascending by rank, within the zero class ascending
lexicographically by filename. -/
def specCompare (a b : PagePlan) : Ordering :=
  match cmpNat (rankClass a.order) (rankClass b.order) with
  | .eq =>
    if rankClass a.order = 1 then cmpList a.filename b.filename
    else cmpInt a.order b.order
  | o => o

/-- Stable insertion step for sorting with a comparator: `x` is placed
before the first element it does not compare greater than (the placement
Rust's stable `sort_by` guarantees). -/
def insertByOrd (x : PagePlan) : List PagePlan → List PagePlan
  | [] => [x]
  | y :: ys => if comparePages x y = .gt then y :: insertByOrd x ys else x :: y :: ys

/-- Stable sort by `comparePages`, modelling `manifest.sort_by(compare_pages)`. -/
def sortPages : List PagePlan → List PagePlan
  | [] => []
  | x :: xs => insertByOrd x (sortPages xs)

/-- Concrete scenario of the spec: `b.png` (rank 0). -/
def planB : PagePlan := ⟨[], [98, 46, 112, 110, 103], 0⟩

/-- Concrete scenario of the spec: `a.png` (rank 0). -/
def planA : PagePlan := ⟨[], [97, 46, 112, 110, 103], 0⟩

/-- Concrete scenario of the spec: `c.png` (rank 1). -/
def planC : PagePlan := ⟨[], [99, 46, 112, 110, 103], 1⟩

/-- Concrete scenario of the spec: `d.png` (rank -1). -/
def planD : PagePlan := ⟨[], [100, 46, 112, 110, 103], -1⟩

theorem rankClass_of_neg {o : Int} (h : o < 0) : rankClass o = 2 := by
  unfold rankClass
  split_ifs <;> omega

theorem rankClass_of_zero {o : Int} (h : o = 0) : rankClass o = 1 := by
  unfold rankClass
  split_ifs <;> omega

theorem rankClass_of_pos {o : Int} (h : 0 < o) : rankClass o = 0 := by
  unfold rankClass
  split_ifs <;> omega

/-- C7. The planner's comparison realises exactly the spec's three-band
order (positive ranks ascending, then zero ranks ascending by filename,
then negative ranks ascending), and on the concrete inputs `b.png` (rank
0), `a.png` (rank 0), `c.png` (rank 1), `d.png` (rank -1) sorting yields
`[c, a, b, d]`. -/
theorem comparePages_matches_spec_and_scenario :
    (∀ a b : PagePlan, comparePages a b = specCompare a b) ∧
    sortPages [planB, planA, planC, planD] = [planC, planA, planB, planD] := by
  constructor
  · intro a b
    rcases lt_trichotomy a.order 0 with ha | ha | ha <;>
      rcases lt_trichotomy b.order 0 with hb | hb | hb
    · simp only [comparePages, specCompare, rankClass_of_neg ha, rankClass_of_neg hb]
      split_ifs <;> first | rfl | omega | contradiction
    · simp only [comparePages, specCompare, rankClass_of_neg ha, rankClass_of_zero hb]
      split_ifs <;> first | rfl | omega | contradiction
    · simp only [comparePages, specCompare, rankClass_of_neg ha, rankClass_of_pos hb]
      split_ifs <;> first | rfl | omega | contradiction
    · simp only [comparePages, specCompare, rankClass_of_zero ha, rankClass_of_neg hb]
      split_ifs <;> first | rfl | omega | contradiction
    · simp only [comparePages, specCompare, rankClass_of_zero ha, rankClass_of_zero hb]
      split_ifs <;> first | rfl | omega | contradiction
    · simp only [comparePages, specCompare, rankClass_of_zero ha, rankClass_of_pos hb]
      split_ifs <;> first | rfl | omega | contradiction
    · simp only [comparePages, specCompare, rankClass_of_pos ha, rankClass_of_neg hb]
      split_ifs <;> first | rfl | omega | contradiction
    · simp only [comparePages, specCompare, rankClass_of_pos ha, rankClass_of_zero hb]
      split_ifs <;> first | rfl | omega | contradiction
    · simp only [comparePages, specCompare, rankClass_of_pos ha, rankClass_of_pos hb]
      split_ifs <;> first | rfl | omega | contradiction
  · decide

/-! ## Extraction range resolution (`bbfmux/src/main.rs`, `cmd_extract`)

The section-scan loop of `cmd_extract` is modelled over the section list as
pairs of (title bytes, `section_start_index`); titles are the strings the
loop obtains through `get_string(..).unwrap_or("")`. -/

/-- Section view used by the extraction scan: resolved title plus start
index. -/
structure XSection where
  title : List Nat
  startIdx : Nat
  deriving DecidableEq, Repr

/-- Rust `str::contains`: `needle` occurs as a contiguous substring of
`haystack` (the empty needle always matches). -/
def containsSub (haystack needle : List Nat) : Bool :=
  (List.range (haystack.length + 1)).any
    (fun i => (haystack.drop i).take needle.length = needle)

/-- Inner loop of `cmd_extract`: scan the sections after the matched one and
return the start index of the first one satisfying the boundary rule, or
`pageCount` if none does.  The tests are performed in the source's order:
with `some rk`, a non-empty `rk` contained in the title ends the range; an
empty `rk` behaves like `none`, ending at the first strictly greater start
index. -/
def findRangeEnd (startIdx pageCount : Nat) (rangeKey : Option (List Nat)) :
    List XSection → Nat
  | [] => pageCount
  | s :: rest =>
    match rangeKey with
    | some rk =>
      if rk ≠ [] ∧ containsSub s.title rk then s.startIdx
      else if rk = [] ∧ s.startIdx > startIdx then s.startIdx
      else findRangeEnd startIdx pageCount rangeKey rest
    | none =>
      if s.startIdx > startIdx then s.startIdx
      else findRangeEnd startIdx pageCount rangeKey rest

/-- Outer loop of `cmd_extract`: find the first section whose title equals
the filter and resolve the page range `[start, end)`; `none` models the
`bail!("Section not found")` path. -/
def extractRange (pageCount : Nat) (filter : List Nat)
    (rangeKey : Option (List Nat)) : List XSection → Option (Nat × Nat)
  | [] => none
  | s :: rest =>
    if s.title = filter then
      some (s.startIdx, findRangeEnd s.startIdx pageCount rangeKey rest)
    else extractRange pageCount filter rangeKey rest

/-- First element of the list satisfying a Bool predicate. -/
def findB (p : XSection → Bool) : List XSection → Option XSection
  | [] => none
  | x :: xs => if p x then some x else findB p xs

/-- Position of the first element of the list satisfying the predicate. -/
def findIdxP (p : XSection → Prop) [DecidablePred p] : List XSection → Option Nat
  | [] => none
  | x :: xs => if p x then some 0 else (findIdxP p xs).map (fun i => i + 1)

/-- Boundary rule as the spec words it: with a non-empty substring key the
next section whose title contains it; otherwise the next section with a
strictly greater start index. -/
def specBoundary (rangeKey : Option (List Nat)) (startIdx : Nat)
    (s : XSection) : Bool :=
  match rangeKey with
  | some rk => if rk ≠ [] then containsSub s.title rk else s.startIdx > startIdx
  | none => s.startIdx > startIdx

/-- Modelled from the spec: the extracted range starts at the found
section's start page and ends at the start page of the first later-listed
section satisfying the boundary rule, or at the end of the book. -/
def specRange (pageCount : Nat) (filter : List Nat)
    (rangeKey : Option (List Nat)) (sections : List XSection) :
    Option (Nat × Nat) :=
  match findIdxP (fun t => t.title = filter) sections with
  | none => none
  | some i =>
    let s := sections.getD i ⟨[], 0⟩
    some (s.startIdx,
      match findB (specBoundary rangeKey s.startIdx) (sections.drop (i + 1)) with
      | some t => t.startIdx
      | none => pageCount)

theorem findRangeEnd_eq_spec (startIdx pageCount : Nat)
    (rangeKey : Option (List Nat)) (rest : List XSection) :
    findRangeEnd startIdx pageCount rangeKey rest =
      match findB (specBoundary rangeKey startIdx) rest with
      | some t => t.startIdx
      | none => pageCount := by
  induction rest with
  | nil => cases rangeKey <;> simp [findRangeEnd, findB]
  | cons s rest ih =>
    cases rangeKey with
    | none =>
      by_cases h : s.startIdx > startIdx
      · simp [findRangeEnd, findB, specBoundary, h]
      · simp [findRangeEnd, findB, specBoundary, h, ih]
    | some rk =>
      by_cases hrk : rk = []
      · subst hrk
        by_cases h : s.startIdx > startIdx
        · simp [findRangeEnd, findB, specBoundary, h]
        · simp [findRangeEnd, findB, specBoundary, h, ih]
      · by_cases h : containsSub s.title rk
        · simp [findRangeEnd, findB, specBoundary, hrk, h]
        · simp [findRangeEnd, findB, specBoundary, hrk, h, ih]

/-- Title bytes of the string Ch1. -/
def ch1 : List Nat := [67, 104, 49]

/-- Title bytes of the string Ch2. -/
def ch2 : List Nat := [67, 104, 50]

/-- C8. The extraction scan of `cmd_extract` computes exactly the range the
spec describes (start page of the matched section up to the first
later-listed section satisfying the boundary rule, else the end of the
book), and on sections Ch1 (start 1) and Ch2 (start 5) of a 10-page book,
extracting Ch1 with no range key yields pages `[1, 5)` and extracting Ch2
yields `[5, 10)`. -/
theorem extractRange_matches_spec_and_scenario :
    (∀ (pageCount : Nat) (filter : List Nat) (rangeKey : Option (List Nat))
      (sections : List XSection),
      extractRange pageCount filter rangeKey sections =
        specRange pageCount filter rangeKey sections) ∧
    extractRange 10 ch1 none [⟨ch1, 1⟩, ⟨ch2, 5⟩] = some (1, 5) ∧
    extractRange 10 ch2 none [⟨ch1, 1⟩, ⟨ch2, 5⟩] = some (5, 10) := by
  refine ⟨?_, by decide, by decide⟩
  intro pageCount filter rangeKey sections
  induction sections with
  | nil => simp [extractRange, specRange, findIdxP]
  | cons s rest ih =>
    by_cases h : s.title = filter
    · simp only [extractRange, if_pos h, specRange, findIdxP,
        List.getD_cons_zero, List.drop_succ_cons, List.drop_zero]
      rw [findRangeEnd_eq_spec]
    · rw [extractRange, if_neg h, ih]
      unfold specRange
      simp only [findIdxP, if_neg h]
      rcases hfi : findIdxP (fun t => t.title = filter) rest with _ | i
      · simp
      · simp only [Option.map_some', List.getD_cons_succ, List.drop_succ_cons]

/-! ## Layout records (`format.rs`)

Record fields are kept as unbounded naturals; the width of each field is
imposed by its serializer (`wrLE`), exactly as storing into a
`U32<LittleEndian>` / `U64<LittleEndian>` field does. -/

/-- The 4-byte magic constant `BBF1`. -/
def bbfMagic : List Nat := [66, 66, 70, 49]

/-- Model of `BBFHeader`. -/
structure Header where
  magic : List Nat
  version : Nat
  flags : Nat
  headerLen : Nat
  reserved : Nat
  deriving DecidableEq, Repr

/-- Model of `BBFAssetEntry`. -/
structure AssetEntry where
  offset : Nat
  length : Nat
  decodedLength : Nat
  xxh3Hash : Nat
  type : Nat
  flags : Nat
  deriving DecidableEq, Repr

/-- Model of `BBFPageEntry`. -/
structure PageEntry where
  assetIndex : Nat
  flags : Nat
  deriving DecidableEq, Repr

/-- Model of `BBFSection`. -/
structure SectionRec where
  titleOffset : Nat
  startIndex : Nat
  parentIndex : Nat
  deriving DecidableEq, Repr

/-- Model of `BBFMetadata`. -/
structure MetaRec where
  keyOffset : Nat
  valOffset : Nat
  deriving DecidableEq, Repr

/-- Model of `BBFFooter`. -/
structure Footer where
  stringPoolOffset : Nat
  assetTableOffset : Nat
  assetCount : Nat
  pageTableOffset : Nat
  pageCount : Nat
  sectionTableOffset : Nat
  sectionCount : Nat
  metaTableOffset : Nat
  keyCount : Nat
  extraOffset : Nat
  indexHash : Nat
  magic : List Nat
  deriving DecidableEq, Repr

/-- Serialization of `BBFHeader` (19 bytes, `repr(C, packed)`). -/
def serHeader (h : Header) : List Nat :=
  h.magic.take 4 ++ [h.version % 256] ++ wrLE 4 h.flags ++ wrLE 2 h.headerLen
    ++ wrLE 8 h.reserved

/-- Serialization of `BBFAssetEntry` (64 bytes). -/
def serAsset (a : AssetEntry) : List Nat :=
  wrLE 8 a.offset ++ wrLE 8 a.length ++ wrLE 8 a.decodedLength
    ++ wrLE 8 a.xxh3Hash ++ [a.type % 256, a.flags % 256]
    ++ List.replicate 6 0 ++ wrLE 8 0 ++ wrLE 8 0 ++ wrLE 8 0

/-- Serialization of `BBFPageEntry` (8 bytes). -/
def serPage (p : PageEntry) : List Nat :=
  wrLE 4 p.assetIndex ++ wrLE 4 p.flags

/-- Serialization of `BBFSection` (12 bytes). -/
def serSection (s : SectionRec) : List Nat :=
  wrLE 4 s.titleOffset ++ wrLE 4 s.startIndex ++ wrLE 4 s.parentIndex

/-- Serialization of `BBFMetadata` (8 bytes). -/
def serMeta (m : MetaRec) : List Nat :=
  wrLE 4 m.keyOffset ++ wrLE 4 m.valOffset

/-- Serialization of `BBFFooter` (76 bytes). -/
def serFooter (f : Footer) : List Nat :=
  wrLE 8 f.stringPoolOffset ++ wrLE 8 f.assetTableOffset ++ wrLE 4 f.assetCount
    ++ wrLE 8 f.pageTableOffset ++ wrLE 4 f.pageCount
    ++ wrLE 8 f.sectionTableOffset ++ wrLE 4 f.sectionCount
    ++ wrLE 8 f.metaTableOffset ++ wrLE 4 f.keyCount
    ++ wrLE 8 f.extraOffset ++ wrLE 8 f.indexHash ++ f.magic.take 4

theorem serAsset_length (a : AssetEntry) : (serAsset a).length = 64 := by
  simp [serAsset, wrLE_length]

theorem serPage_length (p : PageEntry) : (serPage p).length = 8 := by
  simp [serPage, wrLE_length]

theorem serSection_length (s : SectionRec) : (serSection s).length = 12 := by
  simp [serSection, wrLE_length]

theorem serMeta_length (m : MetaRec) : (serMeta m).length = 8 := by
  simp [serMeta, wrLE_length]

theorem serFooter_length (f : Footer) (hm : f.magic.length = 4) :
    (serFooter f).length = 76 := by
  simp [serFooter, wrLE_length, hm]

/-- Media type tag set from `format.rs`. -/
inductive MediaType where
  | unknown | avif | png | webp | jxl | bmp | gif | tiff | jpg
  deriving DecidableEq, Repr

/-- Wire code of each media type (the `repr(u8)` discriminants, with the
gap at 0x06). -/
def MediaType.toCode : MediaType → Nat
  | .unknown => 0x00
  | .avif => 0x01
  | .png => 0x02
  | .webp => 0x03
  | .jxl => 0x04
  | .bmp => 0x05
  | .gif => 0x07
  | .tiff => 0x08
  | .jpg => 0x09

/-! ## Builder (`builder.rs`)

The sink (`W: Write + Seek`) is modelled as the list of bytes written so
far; `current_offset` is carried separately exactly as in the source.  The
xxh3 content hash is the parameter `hash`. -/

/-- Model of the `BBFBuilder` state. -/
structure Builder where
  writer : List Nat
  currentOffset : Nat
  assets : List AssetEntry
  pages : List PageEntry
  sections : List SectionRec
  metadata : List MetaRec
  stringPool : List Nat
  dedupeMap : List (Nat × Nat)
  stringMap : List (List Nat × Nat)
  deriving DecidableEq, Repr

/-- The header written by `BBFBuilder::new`. -/
def initHeader : Header := ⟨bbfMagic, 2, 0, 19, 0⟩

/-- Model of `BBFBuilder::new`: writes the 19-byte header and starts past
it. -/
def builderInit : Builder :=
  ⟨serHeader initHeader, 19, [], [], [], [], [], [], []⟩

/-- Model of `align_padding`: pad the write position to the next 4096-byte
boundary. -/
def alignPadding (b : Builder) : Builder :=
  let padding := (4096 - b.currentOffset % 4096) % 4096
  if padding > 0 then
    { b with writer := b.writer ++ List.replicate padding 0,
             currentOffset := b.currentOffset + padding }
  else b

/-- Model of `BBFBuilder::add_page`: content hash lookup, optional aligned
payload write plus new `AssetEntry`, then one new `PageEntry`; returns the
asset index used. -/
def addPage (hash : List Nat → Nat) (b : Builder) (data : List Nat)
    (mt : MediaType) (flags : Nat) : Nat × Builder :=
  let h := hash data
  match alookup h b.dedupeMap with
  | some idx =>
    (idx, { b with pages := b.pages ++ [⟨idx, flags⟩] })
  | none =>
    let b1 := alignPadding b
    let offset := b1.currentOffset
    let length := data.length
    let b2 := { b1 with writer := b1.writer ++ data,
                        currentOffset := b1.currentOffset + length }
    let entry : AssetEntry := ⟨offset, length, length, h, mt.toCode, 0⟩
    let idx := b2.assets.length
    (idx, { b2 with assets := b2.assets ++ [entry],
                    dedupeMap := (h, idx) :: b2.dedupeMap,
                    pages := b2.pages ++ [⟨idx, flags⟩] })

/-- Model of `get_or_add_str`: exact-match string interning into the
NUL-terminated pool. The recorded offset is `string_pool.len() as u32`, a
truncating cast, modelled by `% 2 ^ 32`. -/
def getOrAddStr (b : Builder) (s : List Nat) : Nat × Builder :=
  match alookup s b.stringMap with
  | some off => (off, b)
  | none =>
    let off := b.stringPool.length % 2 ^ 32
    (off, { b with stringPool := b.stringPool ++ s ++ [0],
                   stringMap := (s, off) :: b.stringMap })

/-- Model of `BBFBuilder::add_section` (sentinel `0xFFFF_FFFF` for "no
parent"). -/
def addSection (b : Builder) (title : List Nat) (startPage : Nat)
    (parent : Option Nat) : Builder :=
  let r := getOrAddStr b title
  { r.2 with sections := r.2.sections ++ [⟨r.1, startPage, parent.getD 4294967295⟩] }

/-- Model of `BBFBuilder::add_metadata`. -/
def addMetadata (b : Builder) (key value : List Nat) : Builder :=
  let rk := getOrAddStr b key
  let rv := getOrAddStr rk.2 value
  { rv.2 with metadata := rv.2.metadata ++ [⟨rk.1, rv.1⟩] }

/-- One mutating builder call. -/
inductive BOp where
  | page (data : List Nat) (mt : MediaType) (flags : Nat)
  | sec (title : List Nat) (startPage : Nat) (parent : Option Nat)
  | meta (key value : List Nat)

/-- Apply one builder call. -/
def applyOp (hash : List Nat → Nat) (b : Builder) : BOp → Builder
  | .page data mt flags => (addPage hash b data mt flags).2
  | .sec title startPage parent => addSection b title startPage parent
  | .meta key value => addMetadata b key value

/-- Apply a sequence of builder calls. -/
def applyOps (hash : List Nat → Nat) (b : Builder) (ops : List BOp) : Builder :=
  ops.foldl (applyOp hash) b

theorem applyOps_append (hash : List Nat → Nat) (b : Builder)
    (ops1 ops2 : List BOp) :
    applyOps hash b (ops1 ++ ops2) = applyOps hash (applyOps hash b ops1) ops2 := by
  simp [applyOps, List.foldl_append]

@[simp] theorem alignPadding_dedupeMap (b : Builder) :
    (alignPadding b).dedupeMap = b.dedupeMap := by
  unfold alignPadding
  dsimp only
  split_ifs <;> rfl

@[simp] theorem alignPadding_assets (b : Builder) :
    (alignPadding b).assets = b.assets := by
  unfold alignPadding
  dsimp only
  split_ifs <;> rfl

@[simp] theorem alignPadding_pages (b : Builder) :
    (alignPadding b).pages = b.pages := by
  unfold alignPadding
  dsimp only
  split_ifs <;> rfl

@[simp] theorem alignPadding_sections (b : Builder) :
    (alignPadding b).sections = b.sections := by
  unfold alignPadding
  dsimp only
  split_ifs <;> rfl

@[simp] theorem alignPadding_metadata (b : Builder) :
    (alignPadding b).metadata = b.metadata := by
  unfold alignPadding
  dsimp only
  split_ifs <;> rfl

@[simp] theorem alignPadding_stringPool (b : Builder) :
    (alignPadding b).stringPool = b.stringPool := by
  unfold alignPadding
  dsimp only
  split_ifs <;> rfl

@[simp] theorem alignPadding_stringMap (b : Builder) :
    (alignPadding b).stringMap = b.stringMap := by
  unfold alignPadding
  dsimp only
  split_ifs <;> rfl

theorem getOrAddStr_dedupeMap (b : Builder) (s : List Nat) :
    (getOrAddStr b s).2.dedupeMap = b.dedupeMap := by
  unfold getOrAddStr
  rcases alookup s b.stringMap <;> rfl

theorem addSection_dedupeMap (b : Builder) (t : List Nat) (sp : Nat)
    (p : Option Nat) : (addSection b t sp p).dedupeMap = b.dedupeMap := by
  unfold addSection
  dsimp only
  rw [getOrAddStr_dedupeMap]

theorem addMetadata_dedupeMap (b : Builder) (k v : List Nat) :
    (addMetadata b k v).dedupeMap = b.dedupeMap := by
  unfold addMetadata
  dsimp only
  rw [getOrAddStr_dedupeMap, getOrAddStr_dedupeMap]

/-- Every builder call leaves an existing dedupe-map binding visible:
bindings are only ever inserted for absent hashes. -/
theorem applyOp_preserves_dedupe (hash : List Nat → Nat) (b : Builder)
    (op : BOp) (h i : Nat) (hl : alookup h b.dedupeMap = some i) :
    alookup h (applyOp hash b op).dedupeMap = some i := by
  cases op with
  | page data mt flags =>
    simp only [applyOp, addPage]
    rcases hd : alookup (hash data) b.dedupeMap with _ | j
    · have hne : hash data ≠ h := fun he => by rw [he, hl] at hd; cases hd
      simp [alookup, hd, hne, hl]
    · simp [hd, hl]
  | sec title startPage parent =>
    simp only [applyOp]
    rw [addSection_dedupeMap]
    exact hl
  | meta key value =>
    simp only [applyOp]
    rw [addMetadata_dedupeMap]
    exact hl

theorem applyOps_preserves_dedupe (hash : List Nat → Nat) (b : Builder)
    (ops : List BOp) (h i : Nat) (hl : alookup h b.dedupeMap = some i) :
    alookup h (applyOps hash b ops).dedupeMap = some i := by
  induction ops generalizing b with
  | nil => exact hl
  | cons op ops ih =>
    exact ih (applyOp hash b op) (applyOp_preserves_dedupe hash b op h i hl)

/-- Immediately after `add_page` the content hash of the payload is bound,
in the dedupe map, to the returned asset index. -/
theorem addPage_binds_hash (hash : List Nat → Nat) (b : Builder)
    (data : List Nat) (mt : MediaType) (flags : Nat) :
    alookup (hash data) (addPage hash b data mt flags).2.dedupeMap =
      some (addPage hash b data mt flags).1 := by
  unfold addPage
  rcases hd : alookup (hash data) b.dedupeMap with _ | j
  · simp [hd, alookup]
  · simp [hd]

/-- C3. Dedup idempotence: once a payload has been added by `add_page`,
adding a byte-identical payload again — after any further sequence of
builder calls — returns the same asset index, leaves the asset table, the
written bytes, the string pool, the dedupe map, the sections and the
metadata untouched, and appends exactly one `PageEntry` referencing that
index. -/
theorem addPage_dedup_idempotent (hash : List Nat → Nat) (b0 : Builder)
    (data : List Nat) (mt : MediaType) (flags : Nat) (ops : List BOp)
    (mt2 : MediaType) (flags2 : Nat) :
    (addPage hash (applyOps hash (addPage hash b0 data mt flags).2 ops) data mt2 flags2) =
      ((addPage hash b0 data mt flags).1,
        { applyOps hash (addPage hash b0 data mt flags).2 ops with
            pages := (applyOps hash (addPage hash b0 data mt flags).2 ops).pages
              ++ [⟨(addPage hash b0 data mt flags).1, flags2⟩] }) := by
  have h1 := addPage_binds_hash hash b0 data mt flags
  have h2 := applyOps_preserves_dedupe hash (addPage hash b0 data mt flags).2 ops
    (hash data) (addPage hash b0 data mt flags).1 h1
  conv_lhs => rw [addPage]
  rw [h2]


/-! ## Finalize (`builder.rs`, `BBFBuilder::finalize`)

The index region is written in fixed order (string pool, asset table, page
table, section table, metadata table) while each table's starting offset
and row count are recorded into the footer; the streaming hasher digests
exactly these bytes, and the serialized footer is written last. -/

/-- Model of `BBFBuilder::finalize`: returns the complete file bytes
together with the footer record it wrote. -/
def finalize (hash : List Nat → Nat) (b : Builder) : List Nat × Footer :=
  let o0 := b.currentOffset
  let poolBytes := b.stringPool
  let assetBytes := concatAll (b.assets.map serAsset)
  let pageBytes := concatAll (b.pages.map serPage)
  let secBytes := concatAll (b.sections.map serSection)
  let metaBytes := concatAll (b.metadata.map serMeta)
  let o1 := o0 + poolBytes.length
  let o2 := o1 + assetBytes.length
  let o3 := o2 + pageBytes.length
  let o4 := o3 + secBytes.length
  let indexHash := hash (poolBytes ++ assetBytes ++ pageBytes ++ secBytes ++ metaBytes)
  let footer : Footer :=
    ⟨o0, o1, b.assets.length % 2 ^ 32, o2, b.pages.length % 2 ^ 32, o3,
      b.sections.length % 2 ^ 32, o4, b.metadata.length % 2 ^ 32, 0,
      indexHash, bbfMagic⟩
  (b.writer ++ poolBytes ++ assetBytes ++ pageBytes ++ secBytes ++ metaBytes
    ++ serFooter footer, footer)

theorem assetBytes_length (l : List AssetEntry) :
    (concatAll (l.map serAsset)).length = 64 * l.length := by
  rw [concatAll_length_const _ 64, List.length_map]
  intro x hx
  rcases List.mem_map.mp hx with ⟨a, _, rfl⟩
  exact serAsset_length a

theorem pageBytes_length (l : List PageEntry) :
    (concatAll (l.map serPage)).length = 8 * l.length := by
  rw [concatAll_length_const _ 8, List.length_map]
  intro x hx
  rcases List.mem_map.mp hx with ⟨a, _, rfl⟩
  exact serPage_length a

theorem secBytes_length (l : List SectionRec) :
    (concatAll (l.map serSection)).length = 12 * l.length := by
  rw [concatAll_length_const _ 12, List.length_map]
  intro x hx
  rcases List.mem_map.mp hx with ⟨a, _, rfl⟩
  exact serSection_length a

theorem metaBytes_length (l : List MetaRec) :
    (concatAll (l.map serMeta)).length = 8 * l.length := by
  rw [concatAll_length_const _ 8, List.length_map]
  intro x hx
  rcases List.mem_map.mp hx with ⟨a, _, rfl⟩
  exact serMeta_length a

theorem getOrAddStr_writer (b : Builder) (s : List Nat) :
    (getOrAddStr b s).2.writer = b.writer := by
  unfold getOrAddStr
  rcases alookup s b.stringMap <;> rfl

theorem getOrAddStr_currentOffset (b : Builder) (s : List Nat) :
    (getOrAddStr b s).2.currentOffset = b.currentOffset := by
  unfold getOrAddStr
  rcases alookup s b.stringMap <;> rfl

/-- Write-position invariant of the builder: `current_offset` equals the
number of bytes written so far. -/
def OffsetInv (b : Builder) : Prop := b.currentOffset = b.writer.length

theorem offsetInv_init : OffsetInv builderInit := by
  unfold OffsetInv builderInit
  simp [serHeader, initHeader, bbfMagic, wrLE_length]

theorem offsetInv_alignPadding (b : Builder) (h : OffsetInv b) :
    OffsetInv (alignPadding b) := by
  unfold OffsetInv alignPadding at *
  dsimp only
  split_ifs <;> simp [h]

theorem offsetInv_applyOp (hash : List Nat → Nat) (b : Builder) (op : BOp)
    (h : OffsetInv b) : OffsetInv (applyOp hash b op) := by
  cases op with
  | page data mt flags =>
    simp only [applyOp, addPage]
    rcases alookup (hash data) b.dedupeMap with _ | j
    · have h2 := offsetInv_alignPadding b h
      unfold OffsetInv at *
      simp [h2]
    · exact h
  | sec title startPage parent =>
    unfold OffsetInv at h ⊢
    dsimp only [applyOp, addSection]
    rw [getOrAddStr_writer, getOrAddStr_currentOffset]
    exact h
  | meta key value =>
    unfold OffsetInv at h ⊢
    dsimp only [applyOp, addMetadata]
    rw [getOrAddStr_writer, getOrAddStr_writer, getOrAddStr_currentOffset,
      getOrAddStr_currentOffset]
    exact h

theorem offsetInv_applyOps (hash : List Nat → Nat) (b : Builder)
    (ops : List BOp) (h : OffsetInv b) : OffsetInv (applyOps hash b ops) := by
  induction ops generalizing b with
  | nil => exact h
  | cons op ops ih => exact ih (applyOp hash b op) (offsetInv_applyOp hash b op h)

/-- Hash model for concrete evaluations: a trivially collision-prone hash. -/
def zeroHash : List Nat → Nat := fun _ => 0

theorem addPage_pages_length (hash : List Nat → Nat) (b : Builder)
    (d : List Nat) (mt : MediaType) (fl : Nat) :
    (addPage hash b d mt fl).2.pages.length = b.pages.length + 1 := by
  unfold addPage
  rcases hl : alookup (hash d) b.dedupeMap with _ | idx
  · simp only [hl]
    simp [alignPadding_pages]
  · simp only [hl]
    simp

theorem applyOps_replicate_page_pages (hash : List Nat → Nat) (b : Builder)
    (n : Nat) (d : List Nat) (mt : MediaType) (fl : Nat) :
    (applyOps hash b (List.replicate n (BOp.page d mt fl))).pages.length
      = b.pages.length + n := by
  induction n generalizing b with
  | zero => simp [applyOps]
  | succ n ih =>
    rw [List.replicate_succ]
    have h1 : applyOps hash b (BOp.page d mt fl :: List.replicate n (BOp.page d mt fl))
        = applyOps hash (applyOp hash b (BOp.page d mt fl))
          (List.replicate n (BOp.page d mt fl)) := rfl
    rw [h1, ih]
    have h2 : applyOp hash b (BOp.page d mt fl) = (addPage hash b d mt fl).2 := rfl
    rw [h2, addPage_pages_length]
    omega

/-- A build of 2^32 `add_page` calls of the same payload: the page table
holds 2^32 entries but `pages.len() as u32` wraps to 0. -/
def c10ops : List BOp := List.replicate (2 ^ 32) (BOp.page [] MediaType.unknown 0)

/-- C10 (counterexample). With 2^32 `add_page` calls of one deduplicated
payload the page table holds 2^32 rows, but the footer records
`page_count` as `pages.len() as u32`, which wraps to 0 — so the recorded
section-table offset is not `page_table_offset + page_count * 8`: the
contiguity equalities fail on the recorded count fields. -/
theorem finalize_count_wrap_counterexample :
    (finalize zeroHash (applyOps zeroHash builderInit c10ops)).2.sectionTableOffset ≠
      (finalize zeroHash (applyOps zeroHash builderInit c10ops)).2.pageTableOffset
        + (finalize zeroHash (applyOps zeroHash builderInit c10ops)).2.pageCount * 8 := by
  have hp : (applyOps zeroHash builderInit c10ops).pages.length = 2 ^ 32 := by
    show (applyOps zeroHash builderInit
      (List.replicate (2 ^ 32) (BOp.page [] MediaType.unknown 0))).pages.length = 2 ^ 32
    rw [applyOps_replicate_page_pages]
    exact Nat.zero_add _
  set b := applyOps zeroHash builderInit c10ops with hb
  unfold finalize
  dsimp only
  rw [pageBytes_length, hp]
  have h32 : (2 : Nat) ^ 32 = 4294967296 := by norm_num
  rw [h32]
  intro h
  omega

/-- C10 (amended). Index-region contiguity: whenever each table's length
fits the `u32` count field the footer records (`len() as u32`), the
recorded regions are contiguous and in fixed order — the asset table
starts right after the string pool, each following table right after the
previous one (64-byte asset rows, 8-byte page rows, 12-byte section rows,
8-byte metadata rows), and the footer begins immediately at the end of
the metadata table, 76 bytes before the end of the file. -/
theorem finalize_tables_contiguous (hash : List Nat → Nat) (ops : List BOp)
    (hA : (applyOps hash builderInit ops).assets.length < 2 ^ 32)
    (hP : (applyOps hash builderInit ops).pages.length < 2 ^ 32)
    (hS : (applyOps hash builderInit ops).sections.length < 2 ^ 32)
    (hM : (applyOps hash builderInit ops).metadata.length < 2 ^ 32) :
    (finalize hash (applyOps hash builderInit ops)).2.assetTableOffset =
      (finalize hash (applyOps hash builderInit ops)).2.stringPoolOffset
        + (applyOps hash builderInit ops).stringPool.length ∧
    (finalize hash (applyOps hash builderInit ops)).2.pageTableOffset =
      (finalize hash (applyOps hash builderInit ops)).2.assetTableOffset
        + (finalize hash (applyOps hash builderInit ops)).2.assetCount * 64 ∧
    (finalize hash (applyOps hash builderInit ops)).2.sectionTableOffset =
      (finalize hash (applyOps hash builderInit ops)).2.pageTableOffset
        + (finalize hash (applyOps hash builderInit ops)).2.pageCount * 8 ∧
    (finalize hash (applyOps hash builderInit ops)).2.metaTableOffset =
      (finalize hash (applyOps hash builderInit ops)).2.sectionTableOffset
        + (finalize hash (applyOps hash builderInit ops)).2.sectionCount * 12 ∧
    (finalize hash (applyOps hash builderInit ops)).1.length =
      (finalize hash (applyOps hash builderInit ops)).2.metaTableOffset
        + (finalize hash (applyOps hash builderInit ops)).2.keyCount * 8 + 76 := by
  have hinv := offsetInv_applyOps hash builderInit ops offsetInv_init
  set b := applyOps hash builderInit ops with hb
  unfold finalize
  dsimp only
  rw [Nat.mod_eq_of_lt hA, Nat.mod_eq_of_lt hP, Nat.mod_eq_of_lt hS,
    Nat.mod_eq_of_lt hM]
  refine ⟨rfl, ?_, ?_, ?_, ?_⟩
  · rw [assetBytes_length]
    ring
  · rw [pageBytes_length]
    ring
  · rw [secBytes_length]
    ring
  · unfold OffsetInv at hinv
    simp only [List.length_append]
    rw [serFooter_length]
    · rw [assetBytes_length, pageBytes_length, secBytes_length, metaBytes_length, hinv]
      omega
    · rfl

/-- C10 (witness). The contiguity equalities for the empty build, whose
table counts all fit u32. -/
theorem finalize_tables_contiguous_witness :
    ((applyOps zeroHash builderInit []).assets.length < 2 ^ 32 ∧
      (applyOps zeroHash builderInit []).pages.length < 2 ^ 32 ∧
      (applyOps zeroHash builderInit []).sections.length < 2 ^ 32 ∧
      (applyOps zeroHash builderInit []).metadata.length < 2 ^ 32) ∧
    ((finalize zeroHash (applyOps zeroHash builderInit [])).2.assetTableOffset =
      (finalize zeroHash (applyOps zeroHash builderInit [])).2.stringPoolOffset
        + (applyOps zeroHash builderInit []).stringPool.length ∧
    (finalize zeroHash (applyOps zeroHash builderInit [])).2.pageTableOffset =
      (finalize zeroHash (applyOps zeroHash builderInit [])).2.assetTableOffset
        + (finalize zeroHash (applyOps zeroHash builderInit [])).2.assetCount * 64 ∧
    (finalize zeroHash (applyOps zeroHash builderInit [])).2.sectionTableOffset =
      (finalize zeroHash (applyOps zeroHash builderInit [])).2.pageTableOffset
        + (finalize zeroHash (applyOps zeroHash builderInit [])).2.pageCount * 8 ∧
    (finalize zeroHash (applyOps zeroHash builderInit [])).2.metaTableOffset =
      (finalize zeroHash (applyOps zeroHash builderInit [])).2.sectionTableOffset
        + (finalize zeroHash (applyOps zeroHash builderInit [])).2.sectionCount * 12 ∧
    (finalize zeroHash (applyOps zeroHash builderInit [])).1.length =
      (finalize zeroHash (applyOps zeroHash builderInit [])).2.metaTableOffset
        + (finalize zeroHash (applyOps zeroHash builderInit [])).2.keyCount * 8 + 76) :=
  ⟨⟨by decide, by decide, by decide, by decide⟩,
    finalize_tables_contiguous zeroHash [] (by decide) (by decide) (by decide)
      (by decide)⟩

/-- C4. The footer's directory hash is computed over exactly the byte range
from `string_pool_offset` to the end of the metadata table — string pool
plus all four tables, excluding header, asset payload bytes and the footer
itself — and that range ends exactly 76 footer bytes before the end of the
file. -/
theorem finalize_index_hash_range (hash : List Nat → Nat) (ops : List BOp) :
    (finalize hash (applyOps hash builderInit ops)).2.indexHash =
      hash (sl (finalize hash (applyOps hash builderInit ops)).1
        (finalize hash (applyOps hash builderInit ops)).2.stringPoolOffset
        ((finalize hash (applyOps hash builderInit ops)).1.length - 76)) ∧
    (finalize hash (applyOps hash builderInit ops)).1.length - 76 =
      (finalize hash (applyOps hash builderInit ops)).2.metaTableOffset
        + 8 * (applyOps hash builderInit ops).metadata.length := by
  have hinv := offsetInv_applyOps hash builderInit ops offsetInv_init
  unfold OffsetInv at hinv
  set b := applyOps hash builderInit ops with hb
  unfold finalize
  dsimp only
  set X := b.stringPool ++ concatAll (b.assets.map serAsset)
    ++ concatAll (b.pages.map serPage) ++ concatAll (b.sections.map serSection)
    ++ concatAll (b.metadata.map serMeta) with hX
  set F := serFooter
    ⟨b.currentOffset, b.currentOffset + b.stringPool.length,
      b.assets.length % 2 ^ 32,
      b.currentOffset + b.stringPool.length + (concatAll (b.assets.map serAsset)).length,
      b.pages.length % 2 ^ 32,
      b.currentOffset + b.stringPool.length + (concatAll (b.assets.map serAsset)).length
        + (concatAll (b.pages.map serPage)).length,
      b.sections.length % 2 ^ 32,
      b.currentOffset + b.stringPool.length + (concatAll (b.assets.map serAsset)).length
        + (concatAll (b.pages.map serPage)).length
        + (concatAll (b.sections.map serSection)).length,
      b.metadata.length % 2 ^ 32, 0,
      hash X, bbfMagic⟩ with hF
  have hFlen : F.length = 76 := by
    rw [hF]
    exact serFooter_length _ rfl
  have hfile : b.writer ++ b.stringPool ++ concatAll (b.assets.map serAsset)
      ++ concatAll (b.pages.map serPage) ++ concatAll (b.sections.map serSection)
      ++ concatAll (b.metadata.map serMeta) ++ F = (b.writer ++ X) ++ F := by
    rw [hX]
    simp [List.append_assoc]
  rw [hfile]
  have hlen : ((b.writer ++ X) ++ F).length - 76 = b.writer.length + X.length := by
    simp only [List.length_append, hFlen]
    omega
  constructor
  · rw [hlen, hinv, sl_append_left _ _ _ _ (by simp), sl_append_exact]
  · rw [hlen, hX, hinv]
    simp only [List.length_append]
    rw [metaBytes_length]
    omega

/-! ## Binding layer (`bbf/src/bindings.rs`)

`BbfBuilder` holds `Mutex<Option<BBFBuilder<File>>>`; `finalize` takes the
inner value out of the slot, and every later call observes `None` and
reports `AlreadyFinalized`.  Calls are modelled sequentially (the mutex
serializes them). -/

/-- Model of the binding error type `BbfError`. -/
inductive BbfErr where
  | io
  | parse
  | alreadyFinalized
  deriving DecidableEq, Repr

/-- Model of `BbfBuilder::add_page` at the binding layer. -/
def bindAddPage (hash : List Nat → Nat) (st : Option Builder) (data : List Nat)
    (mt : MediaType) (flags : Nat) : Except BbfErr Nat × Option Builder :=
  match st with
  | some b =>
    let r := addPage hash b data mt flags
    (.ok r.1, some r.2)
  | none => (.error .alreadyFinalized, none)

/-- Model of `BbfBuilder::finalize` at the binding layer: `guard.take()`
empties the slot, then the inner `finalize` consumes the builder. -/
def bindFinalize (hash : List Nat → Nat) (st : Option Builder) :
    Except BbfErr (List Nat) × Option Builder :=
  match st with
  | some b => (.ok (finalize hash b).1, none)
  | none => (.error .alreadyFinalized, none)

/-- One call arriving at the bound builder. -/
inductive BindOp where
  | addPage (data : List Nat) (mt : MediaType) (flags : Nat)
  | finalizeCall

/-- Result of one bound call. -/
inductive BindRes where
  | pageIdx (r : Except BbfErr Nat)
  | finRes (r : Except BbfErr (List Nat))

/-- Dispatch one bound call. -/
def bindStep (hash : List Nat → Nat) (st : Option Builder) :
    BindOp → BindRes × Option Builder
  | .addPage d mt f =>
    let r := bindAddPage hash st d mt f
    (.pageIdx r.1, r.2)
  | .finalizeCall =>
    let r := bindFinalize hash st
    (.finRes r.1, r.2)

/-- Run a sequence of bound calls, collecting the results. -/
def bindRun (hash : List Nat → Nat) (st : Option Builder) :
    List BindOp → List BindRes
  | [] => []
  | op :: ops =>
    let r := bindStep hash st op
    r.1 :: bindRun hash r.2 ops

/-- Whether a result is a successful finalize. -/
def isOkFin : BindRes → Bool
  | .finRes (.ok _) => true
  | _ => false

/-- Whether a result is the distinct `AlreadyFinalized` error. -/
def isAlreadyFin : BindRes → Bool
  | .pageIdx (.error .alreadyFinalized) => true
  | .finRes (.error .alreadyFinalized) => true
  | _ => false

theorem bindStep_none (hash : List Nat → Nat) (op : BindOp) :
    isAlreadyFin (bindStep hash none op).1 = true ∧
      (bindStep hash none op).2 = none := by
  cases op <;> simp [bindStep, bindAddPage, bindFinalize, isAlreadyFin]

theorem bindRun_none_all_already (hash : List Nat → Nat) (ops : List BindOp) :
    (bindRun hash none ops).all isAlreadyFin = true := by
  induction ops with
  | nil => rfl
  | cons op ops ih =>
    have h := bindStep_none hash op
    simp only [bindRun, List.all_cons, h.2, h.1, ih, Bool.and_self]

theorem bindRun_none_no_fin (hash : List Nat → Nat) (ops : List BindOp) :
    (bindRun hash none ops).countP isOkFin = 0 := by
  induction ops with
  | nil => rfl
  | cons op ops ih =>
    have h := bindStep_none hash op
    have hnot : isOkFin (bindStep hash none op).1 = false := by
      cases op <;> simp [bindStep, bindAddPage, bindFinalize, isOkFin]
    simp only [bindRun, h.2]
    rw [List.countP_cons_of_neg _ _ (by simp [hnot]), ih]

/-- C9. Consumed-once builder across the binding boundary: a successful
finalize empties the slot; afterwards every further `finalize` or
`add_page` call returns the distinct `AlreadyFinalized` error and leaves
the state empty, and in any call sequence at most one finalize succeeds. -/
theorem bindings_consumed_once (hash : List Nat → Nat) :
    (∀ b : Builder, (bindFinalize hash (some b)).2 = none) ∧
    (∀ st : Option Builder, ∀ d : List Nat, ∀ mt : MediaType, ∀ f : Nat,
      st = none →
      bindAddPage hash st d mt f = (.error .alreadyFinalized, none)) ∧
    (∀ st : Option Builder, st = none →
      bindFinalize hash st = (.error .alreadyFinalized, none)) ∧
    (∀ ops : List BindOp, (bindRun hash none ops).all isAlreadyFin = true) ∧
    (∀ st : Option Builder, ∀ ops : List BindOp,
      (bindRun hash st ops).countP isOkFin ≤ 1) := by
  refine ⟨fun b => rfl, fun st d mt f h => by rw [h]; rfl,
    fun st h => by rw [h]; rfl, bindRun_none_all_already hash, ?_⟩
  intro st ops
  induction ops generalizing st with
  | nil => simp [bindRun]
  | cons op ops ih =>
    cases st with
    | none =>
      have h := bindRun_none_no_fin hash (op :: ops)
      omega
    | some b =>
      cases op with
      | addPage d mt f =>
        simp only [bindRun, bindStep, bindAddPage]
        rw [List.countP_cons_of_neg _ _ (by simp [isOkFin])]
        exact ih (some (addPage hash b d mt f).2)
      | finalizeCall =>
        simp only [bindRun, bindStep, bindFinalize]
        rw [List.countP_cons_of_pos _ _ (by simp [isOkFin])]
        rw [bindRun_none_no_fin hash ops]

/-! ## Reader (`bbf/src/reader.rs`)

The zero-copy reader over an in-memory byte buffer.  A `panicked` error
models a Rust slice-indexing panic; the theorems show the code never
reaches it.  Overflow-checked u64/usize arithmetic is modelled by explicit
comparisons with `2 ^ 64`. -/

/-- Model of `BBFError` (plus the panic outcome of a slice indexing). -/
inductive RErr where
  | invalidMagic
  | fileTooShort
  | tableError
  | outOfBounds
  | panicked
  deriving DecidableEq, Repr

/-- Read one `u8` out of the buffer (0 past the end, as zerocopy views never
reach past a checked slice). -/
def byteAt (l : List Nat) (i : Nat) : Nat := l.getD i 0 % 256

/-- Reinterpretation of a 19-byte slice as `BBFHeader`. -/
def parseHeader (l : List Nat) : Header :=
  ⟨[byteAt l 0, byteAt l 1, byteAt l 2, byteAt l 3],
    byteAt l 4, rdLE (sl l 5 9), rdLE (sl l 9 11), rdLE (sl l 11 19)⟩

/-- Reinterpretation of a 76-byte slice as `BBFFooter`. -/
def parseFooter (l : List Nat) : Footer :=
  ⟨rdLE (sl l 0 8), rdLE (sl l 8 16), rdLE (sl l 16 20),
    rdLE (sl l 20 28), rdLE (sl l 28 32),
    rdLE (sl l 32 40), rdLE (sl l 40 44),
    rdLE (sl l 44 52), rdLE (sl l 52 56),
    rdLE (sl l 56 64), rdLE (sl l 64 72),
    [byteAt l 72, byteAt l 73, byteAt l 74, byteAt l 75]⟩

/-- Reinterpretation of a 64-byte slice as `BBFAssetEntry`. -/
def parseAsset (l : List Nat) : AssetEntry :=
  ⟨rdLE (sl l 0 8), rdLE (sl l 8 16), rdLE (sl l 16 24), rdLE (sl l 24 32),
    byteAt l 32, byteAt l 33⟩

/-- Reinterpretation of an 8-byte slice as `BBFPageEntry`. -/
def parsePage (l : List Nat) : PageEntry :=
  ⟨rdLE (sl l 0 4), rdLE (sl l 4 8)⟩

/-- Reinterpretation of a 12-byte slice as `BBFSection`. -/
def parseSection (l : List Nat) : SectionRec :=
  ⟨rdLE (sl l 0 4), rdLE (sl l 4 8), rdLE (sl l 8 12)⟩

/-- Reinterpretation of an 8-byte slice as `BBFMetadata`. -/
def parseMeta (l : List Nat) : MetaRec :=
  ⟨rdLE (sl l 0 4), rdLE (sl l 4 8)⟩

/-- Reinterpretation of a packed table slice as a list of rows
(`<[U]>::ref_from_bytes` on a `count * size`-byte slice). -/
def parseTable {α : Type} (row : List Nat → α) (sz : Nat) (l : List Nat)
    (cnt : Nat) : List α :=
  (List.range cnt).map (fun i => row (sl l (i * sz) (i * sz + sz)))

/-- Model of the `check_range` closure of `BBFReader::new`: overflow-checked
`offset + count * elem_size` against the total length. -/
def checkRangeE (totalLen offset cnt sz : Nat) : Except RErr Unit :=
  if cnt * sz ≥ 2 ^ 64 then .error .tableError
  else if offset + cnt * sz ≥ 2 ^ 64 then .error .tableError
  else if offset + cnt * sz > totalLen then .error .fileTooShort
  else .ok ()

/-- The eager footer validation of `BBFReader::new`: pool/asset-table order,
then the four table ranges, in source order. -/
def readerChecks (totalLen : Nat) (f : Footer) : Except RErr Unit :=
  if f.stringPoolOffset > f.assetTableOffset ∨ f.assetTableOffset > totalLen then
    .error .tableError
  else
    match checkRangeE totalLen f.assetTableOffset f.assetCount 64 with
    | .error e => .error e
    | .ok _ =>
      match checkRangeE totalLen f.pageTableOffset f.pageCount 8 with
      | .error e => .error e
      | .ok _ =>
        match checkRangeE totalLen f.sectionTableOffset f.sectionCount 12 with
        | .error e => .error e
        | .ok _ => checkRangeE totalLen f.metaTableOffset f.keyCount 8

/-- Model of the validated zero-copy reader state. -/
structure Reader where
  data : List Nat
  header : Header
  footer : Footer
  deriving DecidableEq, Repr

/-- Model of `BBFReader::new` over an in-memory buffer. -/
def readerNew (data : List Nat) : Except RErr Reader :=
  if data.length < 19 + 76 then .error .fileTooShort
  else
    match sliceChecked data 0 19 with
    | none => .error .panicked
    | some hs =>
      if (parseHeader hs).magic ≠ bbfMagic then .error .invalidMagic
      else
        match sliceChecked data (data.length - 76) data.length with
        | none => .error .panicked
        | some fs =>
          if (parseFooter fs).magic ≠ bbfMagic then .error .invalidMagic
          else
            match readerChecks data.length (parseFooter fs) with
            | .error e => .error e
            | .ok _ => .ok ⟨data, parseHeader hs, parseFooter fs⟩

/-- Model of `assets()`: the checked table slice reinterpreted as rows. -/
def assetsOf (r : Reader) : Option (List AssetEntry) :=
  (sliceChecked r.data r.footer.assetTableOffset
      (r.footer.assetTableOffset + r.footer.assetCount * 64)).map
    (fun l => parseTable parseAsset 64 l r.footer.assetCount)

/-- Model of `pages()`. -/
def pagesOf (r : Reader) : Option (List PageEntry) :=
  (sliceChecked r.data r.footer.pageTableOffset
      (r.footer.pageTableOffset + r.footer.pageCount * 8)).map
    (fun l => parseTable parsePage 8 l r.footer.pageCount)

/-- Position of the first NUL byte. -/
def firstZero : List Nat → Option Nat
  | [] => none
  | b :: r => if b = 0 then some 0 else (firstZero r).map (fun i => i + 1)

/-- Whether a continuation byte is in `0x80..=0xBF`. -/
def utf8Cont (b : Nat) : Bool := decide (128 ≤ b ∧ b < 192)

/-- UTF-8 well-formedness of a byte sequence, following the RFC 3629 table
that `std::str::from_utf8` implements. -/
def validUtf8 : List Nat → Bool
  | [] => true
  | b :: rest =>
    if b < 128 then validUtf8 rest
    else if 194 ≤ b ∧ b ≤ 223 then
      match rest with
      | c1 :: r => utf8Cont c1 && validUtf8 r
      | [] => false
    else if b = 224 then
      match rest with
      | c1 :: c2 :: r => decide (160 ≤ c1 ∧ c1 < 192) && utf8Cont c2 && validUtf8 r
      | _ => false
    else if 225 ≤ b ∧ b ≤ 236 then
      match rest with
      | c1 :: c2 :: r => utf8Cont c1 && utf8Cont c2 && validUtf8 r
      | _ => false
    else if b = 237 then
      match rest with
      | c1 :: c2 :: r => decide (128 ≤ c1 ∧ c1 < 160) && utf8Cont c2 && validUtf8 r
      | _ => false
    else if 238 ≤ b ∧ b ≤ 239 then
      match rest with
      | c1 :: c2 :: r => utf8Cont c1 && utf8Cont c2 && validUtf8 r
      | _ => false
    else if b = 240 then
      match rest with
      | c1 :: c2 :: c3 :: r =>
        decide (144 ≤ c1 ∧ c1 < 192) && utf8Cont c2 && utf8Cont c3 && validUtf8 r
      | _ => false
    else if 241 ≤ b ∧ b ≤ 243 then
      match rest with
      | c1 :: c2 :: c3 :: r => utf8Cont c1 && utf8Cont c2 && utf8Cont c3 && validUtf8 r
      | _ => false
    else if b = 244 then
      match rest with
      | c1 :: c2 :: c3 :: r =>
        decide (128 ≤ c1 ∧ c1 < 144) && utf8Cont c2 && utf8Cont c3 && validUtf8 r
      | _ => false
    else false

/-- Model of `get_string`: checked pool slice, then lazy per-access range
and UTF-8 checks; the substring runs to the first NUL or the pool end. -/
def getString (r : Reader) (off : Nat) : Except RErr (Option (List Nat)) :=
  match sliceChecked r.data r.footer.stringPoolOffset r.footer.assetTableOffset with
  | none => .error .panicked
  | some rawPool =>
    let pool := rawPool.map (fun b => b % 256)
    if off ≥ pool.length then .ok none
    else
      let s := pool.drop off
      let cand := s.take ((firstZero s).getD s.length)
      .ok (if validUtf8 cand then some cand else none)

/-- Modelled from the spec: what `get_string` must return — `none` outside
the pool or on invalid UTF-8, else the substring from the offset up to the
next NUL or the pool's end. -/
def specGetString (pool : List Nat) (off : Nat) : Option (List Nat) :=
  if off < pool.length then
    let s := pool.drop off
    let cand := s.take ((firstZero s).getD s.length)
    if validUtf8 cand then some cand else none
  else none

/-- Model of `get_asset`: index bound, overflow-checked `offset + length`
against the total length, then the byte range. -/
def getAsset (r : Reader) (idx : Nat) : Except RErr (List Nat) :=
  match assetsOf r with
  | none => .error .panicked
  | some entries =>
    if idx ≥ entries.length then .error .outOfBounds
    else
      let a := entries.getD idx ⟨0, 0, 0, 0, 0, 0⟩
      if a.offset + a.length ≥ 2 ^ 64 then .error .outOfBounds
      else if a.offset + a.length > r.data.length then .error .fileTooShort
      else .ok (sl r.data a.offset (a.offset + a.length))

/-! ## Stream reader (`src/reader.rs`)

The seekable-stream reader reads the header before any length check: a
stream shorter than the header fails inside `read_exact` with an
`UnexpectedEof` I/O error, not `FileTooShort`, and no table-range
validation is performed — a non-empty read past the end surfaces as an
I/O error, while a zero-length `read_exact` always succeeds.
The u64 pool-length subtraction is modelled with release-mode wrapping. -/

/-- Model of the stream reader error type (`src/reader.rs` `BBFError`). -/
inductive SErr where
  | ioErr
  | invalidMagic
  | fileTooShort
  | tableErr
  deriving DecidableEq, Repr

/-- Model of the eagerly-parsed stream reader state. -/
structure SReader where
  header : Header
  footer : Footer
  assets : List AssetEntry
  pages : List PageEntry
  sections : List SectionRec
  metadata : List MetaRec
  stringPool : List Nat
  deriving DecidableEq, Repr

/-- Model of the stream-based `BBFReader::new` (`src/reader.rs`), with
`read_exact` failing as an I/O error when a non-empty read passes the end
of the stream; a zero-length `read_exact` succeeds at any position, as in
Rust, so empty tables and an empty pool are read even past the end. -/
def readerNewStream (data : List Nat) : Except SErr SReader :=
  if data.length < 19 then .error .ioErr
  else
    let header := parseHeader (sl data 0 19)
    if header.magic ≠ bbfMagic then .error .invalidMagic
    else if data.length < 19 + 76 then .error .fileTooShort
    else
      let footer := parseFooter (sl data (data.length - 76) data.length)
      if footer.magic ≠ bbfMagic then .error .invalidMagic
      else
        let plen := (footer.assetTableOffset + 2 ^ 64 - footer.stringPoolOffset) % 2 ^ 64
        if 0 < plen ∧ footer.stringPoolOffset + plen > data.length then .error .ioErr
        else if 0 < footer.assetCount * 64 ∧
            footer.assetTableOffset + footer.assetCount * 64 > data.length then
          .error .ioErr
        else if 0 < footer.pageCount * 8 ∧
            footer.pageTableOffset + footer.pageCount * 8 > data.length then
          .error .ioErr
        else if 0 < footer.sectionCount * 12 ∧
            footer.sectionTableOffset + footer.sectionCount * 12 > data.length then
          .error .ioErr
        else if 0 < footer.keyCount * 8 ∧
            footer.metaTableOffset + footer.keyCount * 8 > data.length then
          .error .ioErr
        else
          .ok ⟨header, footer,
            parseTable parseAsset 64
              (sl data footer.assetTableOffset
                (footer.assetTableOffset + footer.assetCount * 64)) footer.assetCount,
            parseTable parsePage 8
              (sl data footer.pageTableOffset
                (footer.pageTableOffset + footer.pageCount * 8)) footer.pageCount,
            parseTable parseSection 12
              (sl data footer.sectionTableOffset
                (footer.sectionTableOffset + footer.sectionCount * 12)) footer.sectionCount,
            parseTable parseMeta 8
              (sl data footer.metaTableOffset
                (footer.metaTableOffset + footer.keyCount * 8)) footer.keyCount,
            sl data footer.stringPoolOffset (footer.stringPoolOffset + plen)⟩

theorem sliceChecked_of_le (l : List Nat) (a b : Nat) (h1 : a ≤ b)
    (h2 : b ≤ l.length) : sliceChecked l a b = some (sl l a b) := by
  simp [sliceChecked, h1, h2]

theorem readerNew_short (data : List Nat) (h : data.length < 95) :
    readerNew data = .error .fileTooShort := by
  unfold readerNew
  rw [if_pos (by omega)]

theorem checkRangeE_ok (totalLen off cnt sz : Nat)
    (h : checkRangeE totalLen off cnt sz = .ok ()) : off + cnt * sz ≤ totalLen := by
  unfold checkRangeE at h
  split_ifs at h <;> omega

theorem checkRangeE_not_panic (t o c s : Nat) :
    checkRangeE t o c s ≠ .error .panicked := by
  unfold checkRangeE
  split_ifs <;> simp

theorem readerChecks_not_panic (t : Nat) (f : Footer) :
    readerChecks t f ≠ .error .panicked := by
  unfold readerChecks
  split_ifs
  · simp
  · rcases hA : checkRangeE t f.assetTableOffset f.assetCount 64 with e | u
    · have := checkRangeE_not_panic t f.assetTableOffset f.assetCount 64
      rw [hA] at this
      simpa using this
    · rcases hP : checkRangeE t f.pageTableOffset f.pageCount 8 with e | u
      · have := checkRangeE_not_panic t f.pageTableOffset f.pageCount 8
        rw [hP] at this
        simpa using this
      · rcases hS : checkRangeE t f.sectionTableOffset f.sectionCount 12 with e | u
        · have := checkRangeE_not_panic t f.sectionTableOffset f.sectionCount 12
          rw [hS] at this
          simpa using this
        · simp only [hA, hP, hS]
          exact checkRangeE_not_panic t f.metaTableOffset f.keyCount 8

theorem readerChecks_ok (totalLen : Nat) (f : Footer)
    (h : readerChecks totalLen f = .ok ()) :
    f.stringPoolOffset ≤ f.assetTableOffset ∧ f.assetTableOffset ≤ totalLen ∧
    f.assetTableOffset + f.assetCount * 64 ≤ totalLen ∧
    f.pageTableOffset + f.pageCount * 8 ≤ totalLen ∧
    f.sectionTableOffset + f.sectionCount * 12 ≤ totalLen ∧
    f.metaTableOffset + f.keyCount * 8 ≤ totalLen := by
  unfold readerChecks at h
  split_ifs at h with h1
  push_neg at h1
  rcases hA : checkRangeE totalLen f.assetTableOffset f.assetCount 64 with e | ⟨⟩
  · rw [hA] at h
    simp at h
  · rw [hA] at h
    rcases hP : checkRangeE totalLen f.pageTableOffset f.pageCount 8 with e | ⟨⟩
    · rw [hP] at h
      simp at h
    · rw [hP] at h
      rcases hS : checkRangeE totalLen f.sectionTableOffset f.sectionCount 12 with e | ⟨⟩
      · rw [hS] at h
        simp at h
      · rw [hS] at h
        rcases hM : checkRangeE totalLen f.metaTableOffset f.keyCount 8 with e | ⟨⟩
        · rw [hM] at h
          simp at h
        · exact ⟨h1.1, h1.2, checkRangeE_ok _ _ _ _ hA, checkRangeE_ok _ _ _ _ hP,
            checkRangeE_ok _ _ _ _ hS, checkRangeE_ok _ _ _ _ hM⟩

theorem readerNew_ok_inv (data : List Nat) (r : Reader)
    (h : readerNew data = .ok r) :
    r.data = data ∧ 95 ≤ data.length ∧
    r.header = parseHeader (sl data 0 19) ∧
    r.footer = parseFooter (sl data (data.length - 76) data.length) ∧
    r.footer.stringPoolOffset ≤ r.footer.assetTableOffset ∧
    r.footer.assetTableOffset ≤ data.length ∧
    r.footer.assetTableOffset + r.footer.assetCount * 64 ≤ data.length ∧
    r.footer.pageTableOffset + r.footer.pageCount * 8 ≤ data.length ∧
    r.footer.sectionTableOffset + r.footer.sectionCount * 12 ≤ data.length ∧
    r.footer.metaTableOffset + r.footer.keyCount * 8 ≤ data.length := by
  unfold readerNew at h
  by_cases h1 : data.length < 19 + 76
  · rw [if_pos h1] at h
    cases h
  rw [if_neg h1] at h
  simp only [sliceChecked_of_le data 0 19 (by omega) (by omega)] at h
  by_cases h2 : (parseHeader (sl data 0 19)).magic ≠ bbfMagic
  · rw [if_pos h2] at h
    cases h
  rw [if_neg h2] at h
  simp only [sliceChecked_of_le data (data.length - 76) data.length (by omega)
    (le_refl _)] at h
  by_cases h3 : (parseFooter (sl data (data.length - 76) data.length)).magic ≠ bbfMagic
  · rw [if_pos h3] at h
    cases h
  rw [if_neg h3] at h
  rcases hc : readerChecks data.length (parseFooter (sl data (data.length - 76) data.length))
      with e | ⟨⟩
  · rw [hc] at h
    cases h
  · rw [hc] at h
    injection h with h4
    subst h4
    obtain ⟨i1, i2, i3, i4, i5, i6⟩ := readerChecks_ok _ _ hc
    exact ⟨rfl, by omega, rfl, rfl, i1, i2, i3, i4, i5, i6⟩

theorem readerNew_never_panics (data : List Nat) :
    readerNew data ≠ .error .panicked := by
  intro hcontra
  unfold readerNew at hcontra
  by_cases h1 : data.length < 19 + 76
  · rw [if_pos h1] at hcontra
    cases hcontra
  rw [if_neg h1] at hcontra
  simp only [sliceChecked_of_le data 0 19 (by omega) (by omega)] at hcontra
  by_cases h2 : (parseHeader (sl data 0 19)).magic ≠ bbfMagic
  · rw [if_pos h2] at hcontra
    cases hcontra
  rw [if_neg h2] at hcontra
  simp only [sliceChecked_of_le data (data.length - 76) data.length (by omega)
    (le_refl _)] at hcontra
  by_cases h3 : (parseFooter (sl data (data.length - 76) data.length)).magic ≠ bbfMagic
  · rw [if_pos h3] at hcontra
    cases hcontra
  rw [if_neg h3] at hcontra
  rcases hc : readerChecks data.length
      (parseFooter (sl data (data.length - 76) data.length)) with e | ⟨⟩
  · rw [hc] at hcontra
    injection hcontra with h4
    subst h4
    exact readerChecks_not_panic _ _ hc
  · rw [hc] at hcontra
    cases hcontra

/-- C2 (amended). For the buffer-based reader, any buffer shorter than
header + footer (95 bytes) yields `FileTooShort` and construction never
panics; each of the four tables' `offset + count * row_size` is checked
with overflow-checked 64-bit arithmetic against the total length, so a
successfully constructed reader never holds an out-of-range table. -/
theorem readerNew_bounds_safety :
    ∀ bytes : List Nat,
      (bytes.length < 95 → readerNew bytes = .error .fileTooShort) ∧
      readerNew bytes ≠ .error .panicked ∧
      (∀ r : Reader, readerNew bytes = .ok r →
        r.data = bytes ∧
        r.footer.stringPoolOffset ≤ r.footer.assetTableOffset ∧
        r.footer.assetTableOffset ≤ bytes.length ∧
        r.footer.assetTableOffset + r.footer.assetCount * 64 ≤ bytes.length ∧
        r.footer.pageTableOffset + r.footer.pageCount * 8 ≤ bytes.length ∧
        r.footer.sectionTableOffset + r.footer.sectionCount * 12 ≤ bytes.length ∧
        r.footer.metaTableOffset + r.footer.keyCount * 8 ≤ bytes.length) := by
  intro bytes
  refine ⟨readerNew_short bytes, readerNew_never_panics bytes, ?_⟩
  intro r h
  obtain ⟨i1, _, _, _, i5, i6, i7, i8, i9, i10⟩ := readerNew_ok_inv bytes r h
  exact ⟨i1, i5, i6, i7, i8, i9, i10⟩

/-- C2 witness: the empty buffer is rejected with `FileTooShort` by the
buffer-based reader. -/
theorem readerNew_bounds_safety_witness :
    readerNew [] = .error .fileTooShort :=
  (readerNew_bounds_safety []).1 (by decide)

/-- C2 counterexample: the claim as stated also covers the stream-based
reader (`src/reader.rs`), but a stream shorter than the 19-byte header is
rejected there with an I/O (`UnexpectedEof`) error, not `FileTooShort`. -/
theorem readerNewStream_short_is_io_error :
    List.length ([] : List Nat) < 95 ∧
    readerNewStream [] = .error .ioErr ∧
    (Except.error SErr.ioErr : Except SErr SReader) ≠ .error .fileTooShort := by
  refine ⟨by decide, rfl, by simp⟩

theorem parseTable_length {α : Type} (row : List Nat → α) (sz : Nat)
    (l : List Nat) (cnt : Nat) : (parseTable row sz l cnt).length = cnt := by
  simp [parseTable]

theorem assetsOf_valid (bytes : List Nat) (r : Reader)
    (h : readerNew bytes = .ok r) :
    assetsOf r = some (parseTable parseAsset 64
      (sl bytes r.footer.assetTableOffset
        (r.footer.assetTableOffset + r.footer.assetCount * 64))
      r.footer.assetCount) := by
  obtain ⟨i1, _, _, _, _, _, i7, _, _, _⟩ := readerNew_ok_inv bytes r h
  unfold assetsOf
  rw [i1]
  rw [sliceChecked_of_le bytes _ _ (by omega) i7]
  rfl

/-- C5 (amended). For a successfully constructed reader, `get_asset`
returns `OutOfBounds` when the index reaches `asset_count` or when the
entry's `offset + length` overflows the 64-bit checked addition; it returns
`FileTooShort` when the non-overflowing sum exceeds the total file length;
otherwise it returns exactly the byte range `[offset, offset + length)` of
the file. -/
theorem getAsset_checks (bytes : List Nat) (r : Reader) (i : Nat)
    (h : readerNew bytes = .ok r) :
    ∃ entries : List AssetEntry, assetsOf r = some entries ∧
      entries.length = r.footer.assetCount ∧
      getAsset r i =
        (if r.footer.assetCount ≤ i then .error .outOfBounds
         else if 2 ^ 64 ≤ (entries.getD i ⟨0, 0, 0, 0, 0, 0⟩).offset
             + (entries.getD i ⟨0, 0, 0, 0, 0, 0⟩).length then .error .outOfBounds
         else if bytes.length < (entries.getD i ⟨0, 0, 0, 0, 0, 0⟩).offset
             + (entries.getD i ⟨0, 0, 0, 0, 0, 0⟩).length then .error .fileTooShort
         else .ok (sl bytes (entries.getD i ⟨0, 0, 0, 0, 0, 0⟩).offset
           ((entries.getD i ⟨0, 0, 0, 0, 0, 0⟩).offset
             + (entries.getD i ⟨0, 0, 0, 0, 0, 0⟩).length))) := by
  obtain ⟨i1, _, _, _, _, _, _, _, _, _⟩ := readerNew_ok_inv bytes r h
  have hA := assetsOf_valid bytes r h
  refine ⟨_, hA, parseTable_length _ _ _ _, ?_⟩
  simp only [getAsset, hA]
  rw [parseTable_length, i1]

theorem getString_pool_slice (bytes : List Nat) (r : Reader)
    (h : readerNew bytes = .ok r) :
    getString r off =
      .ok (specGetString ((sl bytes r.footer.stringPoolOffset
        r.footer.assetTableOffset).map (fun b => b % 256)) off) := by
  obtain ⟨i1, _, _, _, i5, i6, _, _, _, _⟩ := readerNew_ok_inv bytes r h
  unfold getString
  rw [i1]
  simp only [sliceChecked_of_le bytes _ _ i5 i6]
  by_cases hoff :
      off < ((sl bytes r.footer.stringPoolOffset r.footer.assetTableOffset).map
        (fun b => b % 256)).length
  · rw [if_neg (by omega), specGetString, if_pos hoff]
  · rw [if_pos (by omega), specGetString, if_neg hoff]

/-- Smallest valid file: header plus a footer with all counts zero and all
offsets 19. -/
def minFile : List Nat :=
  serHeader initHeader ++ serFooter ⟨19, 19, 0, 19, 0, 19, 0, 19, 0, 0, 0, bbfMagic⟩

/-- The reader state `readerNew` produces for `minFile`. -/
def minReader : Reader :=
  ⟨minFile, parseHeader (sl minFile 0 19),
    parseFooter (sl minFile (minFile.length - 76) minFile.length)⟩

/-- C5 witness: on the minimal valid file (zero assets), index 0 is
rejected with `OutOfBounds`. -/
theorem getAsset_checks_witness :
    readerNew minFile = .ok minReader ∧ getAsset minReader 0 = .error .outOfBounds := by
  refine ⟨by rfl, ?_⟩
  obtain ⟨entries, hA, hlen, hEq⟩ := getAsset_checks minFile minReader 0 (by rfl)
  rw [hEq, if_pos (by decide)]

/-- A crafted file whose single asset entry has `offset = 2^64 - 1` and
`length = 1`, so the checked 64-bit `offset + length` overflows. -/
def c5file : List Nat :=
  serHeader initHeader ++ serAsset ⟨2 ^ 64 - 1, 1, 1, 0, 0, 0⟩
    ++ serFooter ⟨19, 19, 1, 83, 0, 83, 0, 83, 0, 0, 0, bbfMagic⟩

/-- The reader state `readerNew` produces for `c5file`. -/
def c5reader : Reader :=
  ⟨c5file, parseHeader (sl c5file 0 19),
    parseFooter (sl c5file (c5file.length - 76) c5file.length)⟩

/-- C5 counterexample: on overflow of the checked `offset + length`,
`get_asset` returns `OutOfBounds`, not the `FileTooShort` the claim
states, even though the index is in range. -/
theorem getAsset_overflow_counterexample :
    readerNew c5file = .ok c5reader ∧
    c5reader.footer.assetCount = 1 ∧
    getAsset c5reader 0 = .error .outOfBounds ∧
    (Except.error RErr.outOfBounds : Except RErr (List Nat)) ≠ .error .fileTooShort := by
  refine ⟨by rfl, by rfl, by rfl, by simp⟩

/-- C6. For every successfully constructed reader, `get_string` is total
and never panics: it returns exactly the spec-level result — `none` when
the offset is outside the pool region or the addressed bytes are not valid
UTF-8, otherwise the substring from the offset up to the next NUL byte or
the pool's end. -/
theorem getString_total_spec (bytes : List Nat) (r : Reader) (off : Nat)
    (h : readerNew bytes = .ok r) :
    getString r off =
      .ok (specGetString ((sl bytes r.footer.stringPoolOffset
        r.footer.assetTableOffset).map (fun b => b % 256)) off) :=
  getString_pool_slice bytes r h

/-- C6 witness: on the minimal valid file the pool is empty and offset 0
is out of range, so `get_string` returns `none` without panicking. -/
theorem getString_total_spec_witness :
    getString minReader 0 = .ok none := by
  have h := getString_total_spec minFile minReader 0 (by rfl)
  rw [h]
  rfl

/-! ## Round-trip development (C1)

The relation `Rel` ties a builder state to the payloads, page flags,
section titles and metadata strings fed to it so far; it is preserved by
every builder call and yields, after `finalize`, the decoding guarantees
of the round-trip claim. -/

/-- Payloads of the `add_page` calls, in order. -/
def pagePayloads : List BOp → List (List Nat)
  | [] => []
  | .page d _ _ :: ops => d :: pagePayloads ops
  | .sec _ _ _ :: ops => pagePayloads ops
  | .meta _ _ :: ops => pagePayloads ops

/-- Flags of the `add_page` calls, in order. -/
def pageFlagsL : List BOp → List Nat
  | [] => []
  | .page _ _ fl :: ops => fl :: pageFlagsL ops
  | .sec _ _ _ :: ops => pageFlagsL ops
  | .meta _ _ :: ops => pageFlagsL ops

/-- Titles of the `add_section` calls, in order. -/
def sectionTitles : List BOp → List (List Nat)
  | [] => []
  | .page _ _ _ :: ops => sectionTitles ops
  | .sec t _ _ :: ops => t :: sectionTitles ops
  | .meta _ _ :: ops => sectionTitles ops

/-- Keys of the `add_metadata` calls, in order. -/
def metaKeysL : List BOp → List (List Nat)
  | [] => []
  | .page _ _ _ :: ops => metaKeysL ops
  | .sec _ _ _ :: ops => metaKeysL ops
  | .meta k _ :: ops => k :: metaKeysL ops

/-- Values of the `add_metadata` calls, in order. -/
def metaValsL : List BOp → List (List Nat)
  | [] => []
  | .page _ _ _ :: ops => metaValsL ops
  | .sec _ _ _ :: ops => metaValsL ops
  | .meta _ v :: ops => v :: metaValsL ops

/-- All strings interned by a call sequence. -/
def allStrings (ops : List BOp) : List (List Nat) :=
  sectionTitles ops ++ metaKeysL ops ++ metaValsL ops

/-- Default asset entry (zeroed). -/
def dA : AssetEntry := ⟨0, 0, 0, 0, 0, 0⟩

/-- Default page entry (zeroed). -/
def dP : PageEntry := ⟨0, 0⟩

/-- Default section row (zeroed). -/
def dS : SectionRec := ⟨0, 0, 0⟩

/-- Default metadata row (zeroed). -/
def dM : MetaRec := ⟨0, 0⟩

/-- A NUL-terminated string sits in the pool at the given offset. -/
def PoolsAt (pool : List Nat) (off : Nat) (s : List Nat) : Prop :=
  off + s.length + 1 ≤ pool.length ∧ sl pool off (off + s.length + 1) = s ++ [0]

theorem poolsAt_extend (pool ext : List Nat) (off : Nat) (s : List Nat)
    (h : PoolsAt pool off s) : PoolsAt (pool ++ ext) off s := by
  obtain ⟨h1, h2⟩ := h
  refine ⟨by simp; omega, ?_⟩
  rw [sl_append_left pool ext _ _ h1]
  exact h2

theorem poolsAt_new (pool : List Nat) (s : List Nat) :
    PoolsAt (pool ++ (s ++ [0])) pool.length s := by
  constructor
  · simp
    omega
  · have h := sl_append_exact pool (s ++ [0])
    simpa using h

/-- Relation between a builder state and the inputs fed so far:
`P` payloads, `FL` page flags, `T` section titles, `KK`/`VV` metadata
keys/values. -/
structure Rel (hash : List Nat → Nat) (B : Builder) (P : List (List Nat))
    (FL : List Nat) (T KK VV : List (List Nat)) : Prop where
  offEq : B.currentOffset = B.writer.length
  hdr : B.writer.take 19 = serHeader initHeader
  pagesLen : B.pages.length = P.length
  flagsLen : FL.length = P.length
  pageIdxLt : ∀ k, k < P.length → (B.pages.getD k dP).assetIndex < B.assets.length
  pageFlags : ∀ k, k < P.length → (B.pages.getD k dP).flags = FL.getD k 0
  pageHash : ∀ k, k < P.length →
    (B.assets.getD (B.pages.getD k dP).assetIndex dA).xxh3Hash = hash (P.getD k [])
  assetStore : ∀ i, i < B.assets.length → ∃ p, p ∈ P ∧
    (B.assets.getD i dA).xxh3Hash = hash p ∧
    (B.assets.getD i dA).length = p.length ∧
    (B.assets.getD i dA).decodedLength = p.length ∧
    (B.assets.getD i dA).type < 256 ∧
    (B.assets.getD i dA).flags < 256 ∧
    (B.assets.getD i dA).offset + p.length ≤ B.writer.length ∧
    sl B.writer (B.assets.getD i dA).offset
      ((B.assets.getD i dA).offset + p.length) = p
  assetCnt : B.assets.length = ((P.map hash).dedup).length
  mapIdx : ∀ h0 i, alookup h0 B.dedupeMap = some i →
    i < B.assets.length ∧ (B.assets.getD i dA).xxh3Hash = h0
  mapDom : ∀ h0, (∃ i, alookup h0 B.dedupeMap = some i) ↔ h0 ∈ P.map hash
  strPool : ∀ s off, alookup s B.stringMap = some off → PoolsAt B.stringPool off s
  poolBytes : ∀ c ∈ B.stringPool, c < 256
  secsLen : B.sections.length = T.length
  secTitle : ∀ j, j < T.length →
    PoolsAt B.stringPool (B.sections.getD j dS).titleOffset (T.getD j [])
  metaLenK : B.metadata.length = KK.length
  metaLenV : B.metadata.length = VV.length
  metaKey : ∀ j, j < KK.length →
    PoolsAt B.stringPool (B.metadata.getD j dM).keyOffset (KK.getD j [])
  metaVal : ∀ j, j < VV.length →
    PoolsAt B.stringPool (B.metadata.getD j dM).valOffset (VV.getD j [])

theorem rel_init (hash : List Nat → Nat) :
    Rel hash builderInit [] [] [] [] [] := by
  refine ⟨?_, ?_, rfl, rfl, ?_, ?_, ?_, ?_, rfl, ?_, ?_, ?_, ?_, rfl, ?_, rfl, rfl, ?_, ?_⟩
  · exact offsetInv_init
  · unfold builderInit
    exact List.take_of_length_le (by simp [serHeader, initHeader, bbfMagic, wrLE_length])
  all_goals simp [builderInit, alookup]

theorem getD_snoc_lt {α : Type} (l : List α) (x d : α) (k : Nat)
    (h : k < l.length) : (l ++ [x]).getD k d = l.getD k d :=
  List.getD_append l [x] d k h

theorem getD_snoc_eq {α : Type} (l : List α) (x d : α) :
    (l ++ [x]).getD l.length d = x := by
  rw [List.getD_append_right l [x] d l.length (le_refl _)]
  simp [List.getD]

theorem getOrAddStr_spec (B : Builder) (s : List Nat) (hc : ∀ c ∈ s, c < 256)
    (hlt : B.stringPool.length < 2 ^ 32)
    (hstr : ∀ t off, alookup t B.stringMap = some off → PoolsAt B.stringPool off t)
    (hpb : ∀ c ∈ B.stringPool, c < 256) :
    ∃ ext,
      (getOrAddStr B s).2.stringPool = B.stringPool ++ ext ∧
      (getOrAddStr B s).2.writer = B.writer ∧
      (getOrAddStr B s).2.currentOffset = B.currentOffset ∧
      (getOrAddStr B s).2.assets = B.assets ∧
      (getOrAddStr B s).2.pages = B.pages ∧
      (getOrAddStr B s).2.sections = B.sections ∧
      (getOrAddStr B s).2.metadata = B.metadata ∧
      (getOrAddStr B s).2.dedupeMap = B.dedupeMap ∧
      PoolsAt (getOrAddStr B s).2.stringPool (getOrAddStr B s).1 s ∧
      (∀ t off, alookup t (getOrAddStr B s).2.stringMap = some off →
        PoolsAt (getOrAddStr B s).2.stringPool off t) ∧
      (∀ c ∈ (getOrAddStr B s).2.stringPool, c < 256) := by
  unfold getOrAddStr
  rcases hl : alookup s B.stringMap with _ | off
  · dsimp only
    rw [Nat.mod_eq_of_lt hlt]
    refine ⟨s ++ [0], by simp, rfl, rfl, rfl, rfl, rfl, rfl, rfl, ?_, ?_, ?_⟩
    · have h := poolsAt_new B.stringPool s
      simpa [List.append_assoc] using h
    · intro t off hto
      unfold alookup at hto
      by_cases hts : s = t
      · subst hts
        rw [if_pos rfl] at hto
        injection hto with hto
        subst hto
        have h := poolsAt_new B.stringPool s
        simpa [List.append_assoc] using h
      · rw [if_neg hts] at hto
        have h := poolsAt_extend B.stringPool (s ++ [0]) off t (hstr t off hto)
        simpa [List.append_assoc] using h
    · intro c hcmem
      simp only [List.append_assoc, List.mem_append] at hcmem
      rcases hcmem with h | h | h
      · exact hpb c h
      · exact hc c h
      · simp at h
        omega
  · dsimp only
    exact ⟨[], by simp, rfl, rfl, rfl, rfl, rfl, rfl, rfl, hstr s off hl, hstr, hpb⟩

theorem getOrAddStr_pool_ext (b : Builder) (s : List Nat) :
    ∃ ext, (getOrAddStr b s).2.stringPool = b.stringPool ++ ext := by
  unfold getOrAddStr
  rcases hl : alookup s b.stringMap with _ | off
  · dsimp only
    exact ⟨s ++ [0], by simp [List.append_assoc]⟩
  · exact ⟨[], by simp⟩

theorem addPage_stringPool (hash : List Nat → Nat) (b : Builder) (d : List Nat)
    (mt : MediaType) (fl : Nat) :
    (addPage hash b d mt fl).2.stringPool = b.stringPool := by
  unfold addPage
  rcases hl : alookup (hash d) b.dedupeMap with _ | idx
  · simp only [hl]
    rw [alignPadding_stringPool]
  · simp only [hl]

theorem applyOp_pool_ext (hash : List Nat → Nat) (b : Builder) (op : BOp) :
    ∃ ext, (applyOp hash b op).stringPool = b.stringPool ++ ext := by
  cases op with
  | page d mt fl =>
    exact ⟨[], by simp [applyOp, addPage_stringPool]⟩
  | sec t sp par =>
    obtain ⟨ext, he⟩ := getOrAddStr_pool_ext b t
    exact ⟨ext, he⟩
  | meta k v =>
    obtain ⟨e1, he1⟩ := getOrAddStr_pool_ext b k
    obtain ⟨e2, he2⟩ := getOrAddStr_pool_ext (getOrAddStr b k).2 v
    refine ⟨e1 ++ e2, ?_⟩
    show (getOrAddStr (getOrAddStr b k).2 v).2.stringPool = _
    rw [he2, he1, List.append_assoc]

theorem applyOps_pool_le (hash : List Nat → Nat) (b : Builder) (ops : List BOp) :
    b.stringPool.length ≤ (applyOps hash b ops).stringPool.length := by
  induction ops generalizing b with
  | nil => exact le_refl _
  | cons op ops ih =>
    obtain ⟨ext, he⟩ := applyOp_pool_ext hash b op
    have h1 : applyOps hash b (op :: ops)
        = applyOps hash (applyOp hash b op) ops := rfl
    rw [h1]
    calc b.stringPool.length ≤ (applyOp hash b op).stringPool.length := by
          rw [he]; simp
    _ ≤ _ := ih (applyOp hash b op)

theorem rel_addSection (hash : List Nat → Nat) (B : Builder)
    (P : List (List Nat)) (FL : List Nat) (T KK VV : List (List Nat))
    (t : List Nat) (sp : Nat) (par : Option Nat)
    (hc : ∀ c ∈ t, c < 256) (hlt : B.stringPool.length < 2 ^ 32)
    (hR : Rel hash B P FL T KK VV) :
    Rel hash (addSection B t sp par) P FL (T ++ [t]) KK VV := by
  obtain ⟨ext, e1, e2, e3, e4, e5, e6, e7, e8, e9, e10, e11⟩ :=
    getOrAddStr_spec B t hc hlt hR.strPool hR.poolBytes
  unfold addSection
  dsimp only
  refine ⟨?_, ?_, ?_, hR.flagsLen, ?_, ?_, ?_, ?_, ?_, ?_, ?_, e10, e11, ?_, ?_, ?_, ?_, ?_, ?_⟩
  · rw [e2, e3]
    exact hR.offEq
  · rw [e2]
    exact hR.hdr
  · rw [e5]
    exact hR.pagesLen
  · intro k hk
    rw [e5, e4]
    exact hR.pageIdxLt k hk
  · intro k hk
    rw [e5]
    exact hR.pageFlags k hk
  · intro k hk
    rw [e5, e4]
    exact hR.pageHash k hk
  · intro i hi
    rw [e4] at hi ⊢
    rw [e2]
    exact hR.assetStore i hi
  · rw [e4]
    exact hR.assetCnt
  · intro h0 i h
    rw [e8] at h
    rw [e4]
    exact hR.mapIdx h0 i h
  · intro h0
    rw [e8]
    exact hR.mapDom h0
  · simp only [List.length_append, List.length_cons, List.length_nil]
    rw [e6]
    rw [hR.secsLen]
  · intro j hj
    dsimp only
    simp only [List.length_append, List.length_cons, List.length_nil] at hj
    rw [e6]
    by_cases hjt : j < T.length
    · rw [getD_snoc_lt _ _ dS j (by rw [hR.secsLen]; exact hjt),
        getD_snoc_lt _ _ [] j hjt, e1]
      exact poolsAt_extend _ _ _ _ (hR.secTitle j hjt)
    · have hje : j = T.length := by omega
      subst hje
      have h1 : ∀ row : SectionRec, (B.sections ++ [row]).getD T.length dS = row := by
        intro row
        rw [← hR.secsLen]
        exact getD_snoc_eq _ _ _
      rw [getD_snoc_eq T t [], h1]
      exact e9
  · rw [e7]
    exact hR.metaLenK
  · rw [e7]
    exact hR.metaLenV
  · intro j hj
    rw [e7, e1]
    exact poolsAt_extend _ _ _ _ (hR.metaKey j hj)
  · intro j hj
    rw [e7, e1]
    exact poolsAt_extend _ _ _ _ (hR.metaVal j hj)

theorem rel_addMetadata (hash : List Nat → Nat) (B : Builder)
    (P : List (List Nat)) (FL : List Nat) (T KK VV : List (List Nat))
    (k v : List Nat) (hck : ∀ c ∈ k, c < 256) (hcv : ∀ c ∈ v, c < 256)
    (hlt1 : B.stringPool.length < 2 ^ 32)
    (hlt2 : (getOrAddStr B k).2.stringPool.length < 2 ^ 32)
    (hR : Rel hash B P FL T KK VV) :
    Rel hash (addMetadata B k v) P FL T (KK ++ [k]) (VV ++ [v]) := by
  obtain ⟨ext1, e1, e2, e3, e4, e5, e6, e7, e8, e9, e10, e11⟩ :=
    getOrAddStr_spec B k hck hlt1 hR.strPool hR.poolBytes
  obtain ⟨ext2, f1, f2, f3, f4, f5, f6, f7, f8, f9, f10, f11⟩ :=
    getOrAddStr_spec (getOrAddStr B k).2 v hcv hlt2 e10 e11
  unfold addMetadata
  dsimp only
  have hkey : PoolsAt (getOrAddStr (getOrAddStr B k).2 v).2.stringPool
      (getOrAddStr B k).1 k := by
    rw [f1]
    exact poolsAt_extend _ _ _ _ e9
  refine ⟨?_, ?_, ?_, hR.flagsLen, ?_, ?_, ?_, ?_, ?_, ?_, ?_, f10, f11, ?_, ?_, ?_, ?_, ?_, ?_⟩
  · rw [f2, f3, e2, e3]
    exact hR.offEq
  · rw [f2, e2]
    exact hR.hdr
  · rw [f5, e5]
    exact hR.pagesLen
  · intro j hj
    rw [f5, e5, f4, e4]
    exact hR.pageIdxLt j hj
  · intro j hj
    rw [f5, e5]
    exact hR.pageFlags j hj
  · intro j hj
    rw [f5, e5, f4, e4]
    exact hR.pageHash j hj
  · intro i hi
    rw [f4, e4] at hi ⊢
    rw [f2, e2]
    exact hR.assetStore i hi
  · rw [f4, e4]
    exact hR.assetCnt
  · intro h0 i h
    rw [f8, e8] at h
    rw [f4, e4]
    exact hR.mapIdx h0 i h
  · intro h0
    rw [f8, e8]
    exact hR.mapDom h0
  · rw [f6, e6]
    exact hR.secsLen
  · intro j hj
    dsimp only
    rw [f6, e6, f1, e1]
    exact poolsAt_extend _ _ _ _ (poolsAt_extend _ _ _ _ (hR.secTitle j hj))
  · dsimp only
    simp only [List.length_append, List.length_cons, List.length_nil]
    rw [f7, e7, hR.metaLenK]
  · dsimp only
    simp only [List.length_append, List.length_cons, List.length_nil]
    rw [f7, e7, hR.metaLenV]
  · intro j hj
    dsimp only
    simp only [List.length_append, List.length_cons, List.length_nil] at hj
    rw [f7, e7]
    by_cases hjk : j < KK.length
    · rw [getD_snoc_lt _ _ dM j (by rw [hR.metaLenK]; exact hjk),
        getD_snoc_lt _ _ [] j hjk, f1, e1]
      exact poolsAt_extend _ _ _ _ (poolsAt_extend _ _ _ _ (hR.metaKey j hjk))
    · have hje : j = KK.length := by omega
      subst hje
      have h1 : ∀ row : MetaRec, (B.metadata ++ [row]).getD KK.length dM = row := by
        intro row
        rw [← hR.metaLenK]
        exact getD_snoc_eq _ _ _
      rw [getD_snoc_eq KK k [], h1]
      exact hkey
  · intro j hj
    dsimp only
    simp only [List.length_append, List.length_cons, List.length_nil] at hj
    rw [f7, e7]
    by_cases hjv : j < VV.length
    · rw [getD_snoc_lt _ _ dM j (by rw [hR.metaLenV]; exact hjv),
        getD_snoc_lt _ _ [] j hjv, f1, e1]
      exact poolsAt_extend _ _ _ _ (poolsAt_extend _ _ _ _ (hR.metaVal j hjv))
    · have hje : j = VV.length := by omega
      subst hje
      have h1 : ∀ row : MetaRec, (B.metadata ++ [row]).getD VV.length dM = row := by
        intro row
        rw [← hR.metaLenV]
        exact getD_snoc_eq _ _ _
      rw [getD_snoc_eq VV v [], h1]
      exact f9

theorem alignPadding_writer_ext (B : Builder) :
    ∃ n, (alignPadding B).writer = B.writer ++ List.replicate n 0 ∧
      (alignPadding B).currentOffset = B.currentOffset + n := by
  unfold alignPadding
  dsimp only
  split_ifs
  · exact ⟨_, rfl, rfl⟩
  · exact ⟨0, by simp, by simp⟩

theorem serHeader_init_length : (serHeader initHeader).length = 19 := by
  simp [serHeader, initHeader, bbfMagic, wrLE_length]

theorem writer_ge_19 (w : List Nat) (h : w.take 19 = serHeader initHeader) :
    19 ≤ w.length := by
  have h1 : (w.take 19).length = 19 := by rw [h, serHeader_init_length]
  rw [List.length_take] at h1
  omega

theorem dedup_length_snoc_mem {α : Type} [DecidableEq α] (l : List α) (x : α)
    (h : x ∈ l) : (l ++ [x]).dedup.length = l.dedup.length := by
  rw [← List.card_toFinset, ← List.card_toFinset]
  congr 1
  rw [List.toFinset_append]
  have h2 : ([x] : List α).toFinset = {x} := by simp
  rw [h2]
  exact Finset.union_eq_left.mpr (Finset.singleton_subset_iff.mpr (List.mem_toFinset.mpr h))

theorem dedup_length_snoc_not_mem {α : Type} [DecidableEq α] (l : List α) (x : α)
    (h : x ∉ l) : (l ++ [x]).dedup.length = l.dedup.length + 1 := by
  rw [← List.card_toFinset, ← List.card_toFinset, List.toFinset_append]
  have h2 : l.toFinset ∪ ([x] : List α).toFinset = insert x l.toFinset := by
    simp [Finset.union_comm, Finset.insert_eq]
  rw [h2, Finset.card_insert_of_not_mem (by simp [h])]

theorem mediaType_toCode_lt (mt : MediaType) : mt.toCode < 256 := by
  cases mt <;> simp [MediaType.toCode]

theorem rel_addPage (hash : List Nat → Nat) (B : Builder)
    (P : List (List Nat)) (FL : List Nat) (T KK VV : List (List Nat))
    (d : List Nat) (mt : MediaType) (fl : Nat)
    (hR : Rel hash B P FL T KK VV) :
    Rel hash (addPage hash B d mt fl).2 (P ++ [d]) (FL ++ [fl]) T KK VV := by
  unfold addPage
  rcases hl : alookup (hash d) B.dedupeMap with _ | idx
  · -- new asset: pad, write payload, append entry, insert hash, append page
    obtain ⟨n, hw, ho⟩ := alignPadding_writer_ext B
    simp only [hl]
    simp only [alignPadding_assets, alignPadding_pages, alignPadding_sections,
      alignPadding_metadata, alignPadding_stringPool, alignPadding_stringMap,
      alignPadding_dedupeMap, hw, ho]
    have hnotmem : hash d ∉ P.map hash := by
      intro hmem
      obtain ⟨i, hi⟩ := (hR.mapDom (hash d)).mpr hmem
      rw [hl] at hi
      cases hi
    have hwlen : B.currentOffset + n = (B.writer ++ List.replicate n 0).length := by
      simp [hR.offEq]
    refine ⟨?_, ?_, ?_, ?_, ?_, ?_, ?_, ?_, ?_, ?_, ?_, hR.strPool, hR.poolBytes,
      hR.secsLen, hR.secTitle, hR.metaLenK, hR.metaLenV, hR.metaKey, hR.metaVal⟩
    · dsimp only
      simp only [List.length_append, List.length_replicate, hR.offEq]
    · dsimp only
      have h19 := writer_ge_19 _ hR.hdr
      rw [List.take_append_of_le_length (show 19 ≤ (B.writer ++ List.replicate n 0).length from by simp only [List.length_append, List.length_replicate]; omega)]
      rw [List.take_append_of_le_length h19]
      exact hR.hdr
    · dsimp only
      simp [hR.pagesLen]
    · simp [hR.flagsLen]
    · intro k hk
      dsimp only
      simp only [List.length_append, List.length_cons, List.length_nil]
      by_cases hkP : k < P.length
      · rw [getD_snoc_lt _ _ dP k (by rw [hR.pagesLen]; exact hkP)]
        have := hR.pageIdxLt k hkP
        omega
      · have hke : k = P.length := by
          simp only [List.length_append, List.length_cons, List.length_nil] at hk
          omega
        subst hke
        rw [← hR.pagesLen, getD_snoc_eq]
        simp
    · intro k hk
      dsimp only
      by_cases hkP : k < P.length
      · rw [getD_snoc_lt _ _ dP k (by rw [hR.pagesLen]; exact hkP),
          getD_snoc_lt _ _ 0 k (by rw [hR.flagsLen]; exact hkP)]
        exact hR.pageFlags k hkP
      · have hke : k = P.length := by
          simp only [List.length_append, List.length_cons, List.length_nil] at hk
          omega
        subst hke
        rw [← hR.pagesLen, getD_snoc_eq]
        have h2 : (FL ++ [fl]).getD (B.pages.length) 0 = fl := by
          rw [hR.pagesLen, ← hR.flagsLen, getD_snoc_eq]
        rw [h2]
    · intro k hk
      dsimp only
      by_cases hkP : k < P.length
      · rw [getD_snoc_lt _ _ dP k (by rw [hR.pagesLen]; exact hkP),
          getD_snoc_lt _ _ [] k hkP,
          getD_snoc_lt _ _ dA _ (hR.pageIdxLt k hkP)]
        exact hR.pageHash k hkP
      · have hke : k = P.length := by
          simp only [List.length_append, List.length_cons, List.length_nil] at hk
          omega
        subst hke
        rw [← hR.pagesLen, getD_snoc_eq, getD_snoc_eq]
        have h3 : (P ++ [d]).getD B.pages.length [] = d := by
          rw [hR.pagesLen, getD_snoc_eq]
        rw [h3]
    · intro i hi
      dsimp only
      simp only [List.length_append, List.length_cons, List.length_nil] at hi
      by_cases hiA : i < B.assets.length
      · obtain ⟨p, hp1, hp2, hp3, hp4, hp5, hp6, hp7, hp8⟩ := hR.assetStore i hiA
        refine ⟨p, List.mem_append_left _ hp1, ?_⟩
        rw [getD_snoc_lt _ _ dA i hiA]
        have hb1 : (B.assets.getD i dA).offset + p.length ≤ (B.writer ++ List.replicate n 0).length := by
          simp only [List.length_append, List.length_replicate]
          omega
        refine ⟨hp2, hp3, hp4, hp5, hp6, by simp only [List.length_append, List.length_replicate]; omega, ?_⟩
        rw [sl_append_left _ d _ _ hb1]
        rw [sl_append_left _ _ _ _ hp7]
        exact hp8
      · have hie : i = B.assets.length := by omega
        subst hie
        rw [getD_snoc_eq]
        refine ⟨d, List.mem_append_right _ (by simp), rfl, rfl, rfl,
          mediaType_toCode_lt mt, by simp, ?_, ?_⟩
        · dsimp only
          simp only [List.length_append, List.length_replicate, hR.offEq]
          omega
        · dsimp only
          rw [hwlen]
          exact sl_append_exact (B.writer ++ List.replicate n 0) d
    · dsimp only
      simp only [List.length_append, List.length_cons, List.length_nil,
        List.map_append, List.map_cons, List.map_nil]
      rw [dedup_length_snoc_not_mem _ _ hnotmem, hR.assetCnt]
    · intro h0 i h
      dsimp only
      unfold alookup at h
      by_cases hh0 : hash d = h0
      · rw [if_pos hh0] at h
        injection h with h2
        subst h2
        constructor
        · simp
        · rw [getD_snoc_eq]
          exact hh0
      · rw [if_neg hh0] at h
        obtain ⟨h4, h5⟩ := hR.mapIdx h0 i h
        constructor
        · simp
          omega
        · rw [getD_snoc_lt _ _ dA i h4]
          exact h5
    · intro h0
      dsimp only
      simp only [List.map_append, List.map_cons, List.map_nil, List.mem_append,
        List.mem_cons, List.not_mem_nil, or_false]
      constructor
      · rintro ⟨i, hi⟩
        unfold alookup at hi
        by_cases hh0 : hash d = h0
        · exact Or.inr hh0.symm
        · rw [if_neg hh0] at hi
          exact Or.inl ((hR.mapDom h0).mp ⟨i, hi⟩)
      · rintro (hmem | heq)
        · obtain ⟨i, hi⟩ := (hR.mapDom h0).mpr hmem
          refine ⟨i, ?_⟩
          unfold alookup
          rw [if_neg (fun he => hnotmem (by rw [he]; exact hmem))]
          exact hi
        · subst heq
          exact ⟨B.assets.length, by unfold alookup; rw [if_pos rfl]⟩
  · -- dedup hit: only a new PageEntry
    simp only [hl]
    obtain ⟨hidx, hhash⟩ := hR.mapIdx (hash d) idx hl
    have hmem : hash d ∈ P.map hash := (hR.mapDom (hash d)).mp ⟨idx, hl⟩
    refine ⟨hR.offEq, hR.hdr, ?_, ?_, ?_, ?_, ?_, ?_, ?_, hR.mapIdx, ?_,
      hR.strPool, hR.poolBytes, hR.secsLen, hR.secTitle, hR.metaLenK, hR.metaLenV,
      hR.metaKey, hR.metaVal⟩
    · simp [hR.pagesLen]
    · simp [hR.flagsLen]
    · intro k hk
      dsimp only
      by_cases hkP : k < P.length
      · rw [getD_snoc_lt _ _ dP k (by rw [hR.pagesLen]; exact hkP)]
        exact hR.pageIdxLt k hkP
      · have hke : k = P.length := by
          simp only [List.length_append, List.length_cons, List.length_nil] at hk
          omega
        subst hke
        rw [← hR.pagesLen, getD_snoc_eq]
        exact hidx
    · intro k hk
      dsimp only
      by_cases hkP : k < P.length
      · rw [getD_snoc_lt _ _ dP k (by rw [hR.pagesLen]; exact hkP),
          getD_snoc_lt _ _ 0 k (by rw [hR.flagsLen]; exact hkP)]
        exact hR.pageFlags k hkP
      · have hke : k = P.length := by
          simp only [List.length_append, List.length_cons, List.length_nil] at hk
          omega
        subst hke
        rw [← hR.pagesLen, getD_snoc_eq]
        have h2 : (FL ++ [fl]).getD (B.pages.length) 0 = fl := by
          rw [hR.pagesLen, ← hR.flagsLen, getD_snoc_eq]
        rw [h2]
    · intro k hk
      dsimp only
      by_cases hkP : k < P.length
      · rw [getD_snoc_lt _ _ dP k (by rw [hR.pagesLen]; exact hkP),
          getD_snoc_lt _ _ [] k hkP]
        exact hR.pageHash k hkP
      · have hke : k = P.length := by
          simp only [List.length_append, List.length_cons, List.length_nil] at hk
          omega
        subst hke
        rw [← hR.pagesLen, getD_snoc_eq]
        have h3 : (P ++ [d]).getD B.pages.length [] = d := by
          rw [hR.pagesLen, getD_snoc_eq]
        rw [h3, hhash]
    · intro i hi
      obtain ⟨p, hp1, hrest⟩ := hR.assetStore i hi
      exact ⟨p, List.mem_append_left _ hp1, hrest⟩
    · simp only [List.map_append, List.map_cons, List.map_nil]
      rw [dedup_length_snoc_mem _ _ hmem]
      exact hR.assetCnt
    · intro h0
      simp only [List.map_append, List.map_cons, List.map_nil, List.mem_append,
        List.mem_cons, List.not_mem_nil, or_false]
      constructor
      · intro hex
        exact Or.inl ((hR.mapDom h0).mp hex)
      · rintro (hmem2 | heq)
        · exact (hR.mapDom h0).mpr hmem2
        · subst heq
          exact ⟨idx, hl⟩

theorem rel_applyOps (hash : List Nat → Nat) (B : Builder)
    (P : List (List Nat)) (FL : List Nat) (T KK VV : List (List Nat))
    (ops : List BOp)
    (hb : ∀ s ∈ allStrings ops, ∀ c ∈ s, c < 256)
    (hpl : (applyOps hash B ops).stringPool.length < 2 ^ 32)
    (hR : Rel hash B P FL T KK VV) :
    Rel hash (applyOps hash B ops) (P ++ pagePayloads ops)
      (FL ++ pageFlagsL ops) (T ++ sectionTitles ops)
      (KK ++ metaKeysL ops) (VV ++ metaValsL ops) := by
  induction ops generalizing B P FL T KK VV with
  | nil =>
    simpa [applyOps, pagePayloads, pageFlagsL, sectionTitles, metaKeysL,
      metaValsL] using hR
  | cons op ops ih =>
    cases op with
    | page d mt fl =>
      have hb2 : ∀ s ∈ allStrings ops, ∀ c ∈ s, c < 256 := by
        intro s hs
        exact hb s (by simpa [allStrings, sectionTitles, metaKeysL, metaValsL] using hs)
      have hpl2 : (applyOps hash (addPage hash B d mt fl).2 ops).stringPool.length
          < 2 ^ 32 := hpl
      have h1 := rel_addPage hash B P FL T KK VV d mt fl hR
      have h2 := ih (addPage hash B d mt fl).2 (P ++ [d]) (FL ++ [fl]) T KK VV hb2 hpl2 h1
      simpa [applyOps, applyOp, pagePayloads, pageFlagsL, sectionTitles,
        metaKeysL, metaValsL, List.append_assoc] using h2
    | sec t sp par =>
      have hct : ∀ c ∈ t, c < 256 := by
        refine hb t ?_
        simp [allStrings, sectionTitles]
      have hb2 : ∀ s ∈ allStrings ops, ∀ c ∈ s, c < 256 := by
        intro s hs
        refine hb s ?_
        simp only [allStrings, sectionTitles, metaKeysL, metaValsL,
          List.mem_append, List.mem_cons] at hs ⊢
        tauto
      have hpl2 : (applyOps hash (addSection B t sp par) ops).stringPool.length
          < 2 ^ 32 := hpl
      have hsb : (addSection B t sp par).stringPool.length < 2 ^ 32 :=
        lt_of_le_of_lt (applyOps_pool_le hash _ ops) hpl2
      obtain ⟨ext, he⟩ := getOrAddStr_pool_ext B t
      have hsp2 : (addSection B t sp par).stringPool = B.stringPool ++ ext := he
      have hBlt : B.stringPool.length < 2 ^ 32 := by
        rw [hsp2, List.length_append] at hsb
        omega
      have h1 := rel_addSection hash B P FL T KK VV t sp par hct hBlt hR
      have h2 := ih (addSection B t sp par) P FL (T ++ [t]) KK VV hb2 hpl2 h1
      simpa [applyOps, applyOp, pagePayloads, pageFlagsL, sectionTitles,
        metaKeysL, metaValsL, List.append_assoc] using h2
    | meta k v =>
      have hck : ∀ c ∈ k, c < 256 := by
        refine hb k ?_
        simp [allStrings, metaKeysL]
      have hcv : ∀ c ∈ v, c < 256 := by
        refine hb v ?_
        simp [allStrings, metaValsL]
      have hb2 : ∀ s ∈ allStrings ops, ∀ c ∈ s, c < 256 := by
        intro s hs
        refine hb s ?_
        simp only [allStrings, sectionTitles, metaKeysL, metaValsL,
          List.mem_append, List.mem_cons] at hs ⊢
        tauto
      have hpl2 : (applyOps hash (addMetadata B k v) ops).stringPool.length
          < 2 ^ 32 := hpl
      have hmb : (addMetadata B k v).stringPool.length < 2 ^ 32 :=
        lt_of_le_of_lt (applyOps_pool_le hash _ ops) hpl2
      obtain ⟨e2, he2⟩ := getOrAddStr_pool_ext (getOrAddStr B k).2 v
      have hmp2 : (addMetadata B k v).stringPool
          = (getOrAddStr B k).2.stringPool ++ e2 := he2
      have hlt2 : (getOrAddStr B k).2.stringPool.length < 2 ^ 32 := by
        rw [hmp2, List.length_append] at hmb
        omega
      obtain ⟨e1, he1⟩ := getOrAddStr_pool_ext B k
      have hlt1 : B.stringPool.length < 2 ^ 32 := by
        rw [he1, List.length_append] at hlt2
        omega
      have h1 := rel_addMetadata hash B P FL T KK VV k v hck hcv hlt1 hlt2 hR
      have h2 := ih (addMetadata B k v) P FL T (KK ++ [k]) (VV ++ [v]) hb2 hpl2 h1
      simpa [applyOps, applyOp, pagePayloads, pageFlagsL, sectionTitles,
        metaKeysL, metaValsL, List.append_assoc] using h2

theorem rel_ops (hash : List Nat → Nat) (ops : List BOp)
    (hb : ∀ s ∈ allStrings ops, ∀ c ∈ s, c < 256)
    (hpl : (applyOps hash builderInit ops).stringPool.length < 2 ^ 32) :
    Rel hash (applyOps hash builderInit ops) (pagePayloads ops)
      (pageFlagsL ops) (sectionTitles ops) (metaKeysL ops) (metaValsL ops) := by
  have h := rel_applyOps hash builderInit [] [] [] [] [] ops hb hpl (rel_init hash)
  simpa using h

theorem sl_skip (seg rest : List Nat) (a b : Nat) (ha : seg.length ≤ a) :
    sl (seg ++ rest) a b = sl rest (a - seg.length) (b - seg.length) := by
  unfold sl
  have h1 : (seg ++ rest).drop a = rest.drop (a - seg.length) := by
    have h2 : a = seg.length + (a - seg.length) := by omega
    conv_lhs => rw [h2, List.drop_append]
  rw [h1]
  congr 1
  omega

theorem sl_wr_skip (k v : Nat) (rest : List Nat) (a b : Nat) (h : k ≤ a) :
    sl (wrLE k v ++ rest) a b = sl rest (a - k) (b - k) := by
  have h2 := sl_skip (wrLE k v) rest a b (by rw [wrLE_length]; exact h)
  rwa [wrLE_length] at h2

theorem sl_wr_take (k v : Nat) (rest : List Nat) (a b : Nat) (h : b ≤ k) :
    sl (wrLE k v ++ rest) a b = sl (wrLE k v) a b :=
  sl_append_left _ _ _ _ (by rw [wrLE_length]; exact h)

theorem sl_wr_all (k v : Nat) : sl (wrLE k v) 0 k = wrLE k v := by
  unfold sl
  simp [List.take_of_length_le, wrLE_length]

theorem byteAt_wr_skip (k v : Nat) (rest : List Nat) (i : Nat) (h : k ≤ i) :
    byteAt (wrLE k v ++ rest) i = byteAt rest (i - k) := by
  unfold byteAt
  rw [List.getD_append_right _ _ _ _ (by rw [wrLE_length]; exact h), wrLE_length]

theorem parseFooter_serFooter (f : Footer)
    (h1 : f.stringPoolOffset < 2 ^ 64) (h2 : f.assetTableOffset < 2 ^ 64)
    (h3 : f.assetCount < 2 ^ 32) (h4 : f.pageTableOffset < 2 ^ 64)
    (h5 : f.pageCount < 2 ^ 32) (h6 : f.sectionTableOffset < 2 ^ 64)
    (h7 : f.sectionCount < 2 ^ 32) (h8 : f.metaTableOffset < 2 ^ 64)
    (h9 : f.keyCount < 2 ^ 32) (h10 : f.extraOffset < 2 ^ 64)
    (h11 : f.indexHash < 2 ^ 64) (h12 : f.magic = bbfMagic) :
    parseFooter (serFooter f) = f := by
  cases f with
  | mk sp atf ac pt pc st sc mtt kc eo ihash mg =>
    dsimp only at h1 h2 h3 h4 h5 h6 h7 h8 h9 h10 h11 h12
    subst h12
    unfold parseFooter serFooter
    dsimp only
    rw [Footer.mk.injEq]
    simp only [List.append_assoc]
    refine ⟨?_, ?_, ?_, ?_, ?_, ?_, ?_, ?_, ?_, ?_, ?_, ?_⟩ <;>
      first
      | (simp [sl_wr_skip, sl_wr_take, sl_wr_all, rdLE_wrLE]; omega)
      | (simp [byteAt_wr_skip]; decide)

theorem parsePage_serPage (p : PageEntry) (h1 : p.assetIndex < 2 ^ 32)
    (h2 : p.flags < 2 ^ 32) : parsePage (serPage p) = p := by
  cases p with
  | mk ai fl =>
    dsimp only at h1 h2
    unfold parsePage serPage
    rw [PageEntry.mk.injEq]
    constructor <;>
      simp [sl_wr_skip, sl_wr_take, sl_wr_all, rdLE_wrLE] <;> omega

theorem parseAsset_serAsset (a : AssetEntry)
    (h1 : a.offset < 2 ^ 64) (h2 : a.length < 2 ^ 64)
    (h3 : a.decodedLength < 2 ^ 64) (h4 : a.xxh3Hash < 2 ^ 64)
    (h5 : a.type < 256) (h6 : a.flags < 256) :
    parseAsset (serAsset a) = a := by
  cases a with
  | mk o l dl hsh ty fl =>
    dsimp only at h1 h2 h3 h4 h5 h6
    unfold parseAsset serAsset
    rw [AssetEntry.mk.injEq]
    simp only [List.append_assoc, List.cons_append, List.nil_append]
    refine ⟨?_, ?_, ?_, ?_, ?_, ?_⟩ <;>
      first
      | (simp [sl_wr_skip, sl_wr_take, sl_wr_all, rdLE_wrLE]; omega)
      | (simp [byteAt_wr_skip]; simp [byteAt, List.getD_cons_zero,
          List.getD_cons_succ]; omega)

theorem parseTable_concat {α : Type} (parse : List Nat → α) (ser : α → List Nat)
    (sz : Nat) (l : List α)
    (hlen : ∀ a ∈ l, (ser a).length = sz)
    (hrt : ∀ a ∈ l, parse (ser a) = a) :
    parseTable parse sz (concatAll (l.map ser)) l.length = l := by
  induction l with
  | nil => simp [parseTable, concatAll]
  | cons x xs ih =>
    have hx : (ser x).length = sz := hlen x (List.mem_cons_self x xs)
    have hxs_len : ∀ a ∈ xs, (ser a).length = sz :=
      fun a ha => hlen a (List.mem_cons_of_mem x ha)
    have hxs_rt : ∀ a ∈ xs, parse (ser a) = a :=
      fun a ha => hrt a (List.mem_cons_of_mem x ha)
    have hconcat : concatAll (List.map ser (x :: xs))
        = ser x ++ concatAll (List.map ser xs) := rfl
    unfold parseTable
    rw [List.length_cons, List.range_succ_eq_map, List.map_cons, List.map_map,
      hconcat]
    congr 1
    · simp only [Nat.zero_mul, Nat.zero_add]
      rw [sl_append_left _ _ 0 sz (le_of_eq hx.symm)]
      have hself : sl (ser x) 0 sz = ser x := by
        unfold sl
        simp [List.take_of_length_le, hx]
      rw [hself]
      exact hrt x (List.mem_cons_self x xs)
    · have hmc : List.map ((fun i => parse
          (sl (ser x ++ concatAll (List.map ser xs)) (i * sz) (i * sz + sz)))
            ∘ Nat.succ) (List.range xs.length)
          = List.map (fun i => parse
            (sl (concatAll (List.map ser xs)) (i * sz) (i * sz + sz)))
            (List.range xs.length) := by
        apply List.map_congr_left
        intro i hi
        simp only [Function.comp_apply, Nat.succ_eq_add_one]
        have hs : (i + 1) * sz = i * sz + sz := Nat.succ_mul i sz
        rw [sl_skip (ser x) _ _ _ (by rw [hx, hs]; omega), hx]
        have e1 : (i + 1) * sz - sz = i * sz := by rw [hs]; omega
        have e2 : (i + 1) * sz + sz - sz = i * sz + sz := by omega
        rw [e1, e2]
      rw [hmc]
      exact ih hxs_len hxs_rt

theorem firstZero_append (t rest : List Nat) (h : 0 ∉ t) :
    firstZero (t ++ 0 :: rest) = some t.length := by
  induction t with
  | nil => simp [firstZero]
  | cons b ts ih =>
    have hb : b ≠ 0 := fun he => h (by rw [he]; exact List.mem_cons_self 0 ts)
    have hts : 0 ∉ ts := fun hm => h (List.mem_cons_of_mem b hm)
    simp only [List.cons_append, firstZero, if_neg hb]
    rw [show ts.append (0 :: rest) = ts ++ 0 :: rest from rfl, ih hts]
    simp

theorem map_mod_id (l : List Nat) (h : ∀ c ∈ l, c < 256) :
    l.map (fun b => b % 256) = l := by
  induction l with
  | nil => rfl
  | cons c cs ih =>
    have hc := h c (List.mem_cons_self c cs)
    have hcs := fun x hx => h x (List.mem_cons_of_mem c hx)
    simp [Nat.mod_eq_of_lt hc, ih hcs]

/-- Spec-level `get_string` result at a pool offset holding a stored
NUL-terminated string. -/
theorem specGetString_poolsAt (pool : List Nat) (off : Nat) (t : List Nat)
    (hp : PoolsAt pool off t) (hnz : 0 ∉ t) (hu : validUtf8 t = true) :
    specGetString pool off = some t := by
  obtain ⟨hb1, hb2⟩ := hp
  unfold specGetString
  rw [if_pos (by omega)]
  dsimp only
  have htake : (pool.drop off).take (t.length + 1) = t ++ [0] := by
    unfold sl at hb2
    have he : off + t.length + 1 - off = t.length + 1 := by omega
    rw [he] at hb2
    exact hb2
  have hdecomp : pool.drop off = t ++ 0 :: (pool.drop off).drop (t.length + 1) := by
    conv_lhs => rw [← List.take_append_drop (t.length + 1) (pool.drop off)]
    rw [htake]
    simp
  rw [hdecomp, firstZero_append _ _ hnz]
  simp only [Option.getD_some]
  rw [List.take_left]
  rw [if_pos hu]

theorem dedup_length_le {α : Type} [DecidableEq α] (l : List α) :
    l.dedup.length ≤ l.length :=
  List.Sublist.length_le (List.dedup_sublist l)

theorem dedup_map_inj_length {α β : Type} [DecidableEq α] [DecidableEq β]
    (f : α → β) (l : List α)
    (hinj : ∀ a ∈ l, ∀ b ∈ l, f a = f b → a = b) :
    (l.map f).dedup.length = l.dedup.length := by
  induction l with
  | nil => simp
  | cons x xs ih =>
    have hinj2 : ∀ a ∈ xs, ∀ b ∈ xs, f a = f b → a = b :=
      fun a ha b hb => hinj a (List.mem_cons_of_mem x ha) b (List.mem_cons_of_mem x hb)
    have hmemiff : f x ∈ xs.map f ↔ x ∈ xs := by
      constructor
      · intro hm
        obtain ⟨y, hy, hyx⟩ := List.mem_map.mp hm
        have := hinj y (List.mem_cons_of_mem x hy) x (List.mem_cons_self x xs) hyx
        rw [← this]
        exact hy
      · intro hm
        exact List.mem_map.mpr ⟨x, hm, rfl⟩
    rw [List.map_cons]
    by_cases hx : x ∈ xs
    · rw [List.dedup_cons_of_mem hx, List.dedup_cons_of_mem (hmemiff.mpr hx)]
      exact ih hinj2
    · rw [List.dedup_cons_of_not_mem hx,
        List.dedup_cons_of_not_mem (fun hm => hx (hmemiff.mp hm))]
      simp [ih hinj2]

/-- The reader state `readerNew` returns on success. -/
def mkReader (data : List Nat) : Reader :=
  ⟨data, parseHeader (sl data 0 19),
    parseFooter (sl data (data.length - 76) data.length)⟩

theorem sl_exact_at (pre mid post : List Nat) (a b : Nat)
    (ha : a = pre.length) (hb : b = a + mid.length) :
    sl (pre ++ (mid ++ post)) a b = mid := by
  subst hb
  subst ha
  rw [← List.append_assoc]
  rw [sl_append_left _ post _ _ (by simp)]
  exact sl_append_exact pre mid

theorem checkRangeE_ok_of (t o c s : Nat) (h1 : c * s < 2 ^ 64)
    (h2 : o + c * s < 2 ^ 64) (h3 : o + c * s ≤ t) :
    checkRangeE t o c s = .ok () := by
  unfold checkRangeE
  rw [if_neg (by omega), if_neg (by omega), if_neg (by omega)]

theorem mem_getD_of_lt {α : Type} (l : List α) (k : Nat) (d : α)
    (h : k < l.length) : l.getD k d ∈ l := by
  rw [List.getD_eq_getElem l d h]
  exact List.getElem_mem h

theorem finalize_decomp (hash : List Nat → Nat) (B : Builder) :
    (finalize hash B).1 = B.writer ++ B.stringPool ++ concatAll (B.assets.map serAsset)
      ++ concatAll (B.pages.map serPage) ++ concatAll (B.sections.map serSection)
      ++ concatAll (B.metadata.map serMeta) ++ serFooter (finalize hash B).2 := rfl

theorem finalize_footer_eq (hash : List Nat → Nat) (B : Builder) :
    (finalize hash B).2 = ⟨B.currentOffset,
      B.currentOffset + B.stringPool.length,
      B.assets.length % 2 ^ 32,
      B.currentOffset + B.stringPool.length + (concatAll (B.assets.map serAsset)).length,
      B.pages.length % 2 ^ 32,
      B.currentOffset + B.stringPool.length + (concatAll (B.assets.map serAsset)).length
        + (concatAll (B.pages.map serPage)).length,
      B.sections.length % 2 ^ 32,
      B.currentOffset + B.stringPool.length + (concatAll (B.assets.map serAsset)).length
        + (concatAll (B.pages.map serPage)).length
        + (concatAll (B.sections.map serSection)).length,
      B.metadata.length % 2 ^ 32, 0,
      hash (B.stringPool ++ concatAll (B.assets.map serAsset)
        ++ concatAll (B.pages.map serPage) ++ concatAll (B.sections.map serSection)
        ++ concatAll (B.metadata.map serMeta)),
      bbfMagic⟩ := rfl

/-- C1 (amended). Round-trip: for every builder call sequence — provided the
64-bit content hash does not collide on the added payloads (the spec's own
open question), no interned string contains a NUL byte (all are valid
UTF-8 byte strings), the string pool stays below 2^32 bytes (so the
`len() as u32` interned offsets are not truncated), and the table counts
and file size fit the u32/u64 fields they are stored in — constructing a
reader on the finalized bytes succeeds, the decoded page table equals the
one the builder recorded, `get_asset` returns byte-for-byte the payload of
each page, `asset_count` equals the number of distinct payloads, and
`get_string` on every recorded section-title / metadata key / value offset
returns exactly the string passed in. -/
theorem builder_reader_roundtrip (hash : List Nat → Nat) (ops : List BOp)
    (hh : ∀ l : List Nat, hash l < 2 ^ 64)
    (hinj : ∀ p ∈ pagePayloads ops, ∀ q ∈ pagePayloads ops, hash p = hash q → p = q)
    (hstr : ∀ s ∈ allStrings ops, validUtf8 s = true ∧ 0 ∉ s ∧ ∀ c ∈ s, c < 256)
    (hfl : ∀ fl ∈ pageFlagsL ops, fl < 2 ^ 32)
    (hsp32 : (applyOps hash builderInit ops).stringPool.length < 2 ^ 32)
    (hnp : (applyOps hash builderInit ops).pages.length < 2 ^ 32)
    (hns : (applyOps hash builderInit ops).sections.length < 2 ^ 32)
    (hnm : (applyOps hash builderInit ops).metadata.length < 2 ^ 32)
    (hlen : (finalize hash (applyOps hash builderInit ops)).1.length < 2 ^ 64) :
    readerNew (finalize hash (applyOps hash builderInit ops)).1
      = .ok (mkReader (finalize hash (applyOps hash builderInit ops)).1) ∧
    pagesOf (mkReader (finalize hash (applyOps hash builderInit ops)).1)
      = some (applyOps hash builderInit ops).pages ∧
    (applyOps hash builderInit ops).pages.length = (pagePayloads ops).length ∧
    (∀ k, k < (applyOps hash builderInit ops).pages.length →
      getAsset (mkReader (finalize hash (applyOps hash builderInit ops)).1)
        (((applyOps hash builderInit ops).pages.getD k dP).assetIndex)
        = .ok ((pagePayloads ops).getD k [])) ∧
    (mkReader (finalize hash (applyOps hash builderInit ops)).1).footer.assetCount
      = ((pagePayloads ops).dedup).length ∧
    (applyOps hash builderInit ops).sections.length = (sectionTitles ops).length ∧
    (∀ j, j < (applyOps hash builderInit ops).sections.length →
      getString (mkReader (finalize hash (applyOps hash builderInit ops)).1)
        (((applyOps hash builderInit ops).sections.getD j dS).titleOffset)
        = .ok (some ((sectionTitles ops).getD j []))) ∧
    (applyOps hash builderInit ops).metadata.length = (metaKeysL ops).length ∧
    (∀ j, j < (applyOps hash builderInit ops).metadata.length →
      getString (mkReader (finalize hash (applyOps hash builderInit ops)).1)
        (((applyOps hash builderInit ops).metadata.getD j dM).keyOffset)
        = .ok (some ((metaKeysL ops).getD j [])) ∧
      getString (mkReader (finalize hash (applyOps hash builderInit ops)).1)
        (((applyOps hash builderInit ops).metadata.getD j dM).valOffset)
        = .ok (some ((metaValsL ops).getD j []))) := by
  have hR := rel_ops hash ops (fun s hs => (hstr s hs).2.2) hsp32
  set B := applyOps hash builderInit ops with hB
  set P := pagePayloads ops with hP
  set FP := finalize hash B with hFP
  have hfile := finalize_decomp hash B
  have hfoot := finalize_footer_eq hash B
  rw [← hFP] at hfile hfoot
  set pool := B.stringPool with hpool
  set AT := concatAll (B.assets.map serAsset) with hAT
  set PT := concatAll (B.pages.map serPage) with hPT
  set ST := concatAll (B.sections.map serSection) with hST
  set MT := concatAll (B.metadata.map serMeta) with hMT
  have hinv : B.currentOffset = B.writer.length := hR.offEq
  have hATlen : AT.length = 64 * B.assets.length := assetBytes_length _
  have hPTlen : PT.length = 8 * B.pages.length := pageBytes_length _
  have hSTlen : ST.length = 12 * B.sections.length := secBytes_length _
  have hMTlen : MT.length = 8 * B.metadata.length := metaBytes_length _
  have hw19 : 19 ≤ B.writer.length := writer_ge_19 _ hR.hdr
  have hmg : FP.2.magic = bbfMagic := by rw [hfoot]
  have hF76 : (serFooter FP.2).length = 76 := serFooter_length _ (by rw [hfoot]; rfl)
  have hnA : B.assets.length ≤ B.pages.length := by
    rw [hR.assetCnt, hR.pagesLen]
    calc ((P.map hash).dedup).length ≤ (P.map hash).length := dedup_length_le _
    _ = P.length := List.length_map _ _
  have hL : FP.1.length = B.writer.length + pool.length + AT.length + PT.length
      + ST.length + MT.length + 76 := by
    rw [hfile]
    simp only [List.length_append, hF76]
  -- footer field views
  have hsp : FP.2.stringPoolOffset = B.writer.length := by rw [hfoot, hinv]
  have hat : FP.2.assetTableOffset = B.writer.length + pool.length := by
    rw [hfoot, hinv]
  have hpt : FP.2.pageTableOffset = B.writer.length + pool.length + AT.length := by
    rw [hfoot, hinv]
  have hst : FP.2.sectionTableOffset
      = B.writer.length + pool.length + AT.length + PT.length := by
    rw [hfoot, hinv]
  have hmt : FP.2.metaTableOffset
      = B.writer.length + pool.length + AT.length + PT.length + ST.length := by
    rw [hfoot, hinv]
  have hac : FP.2.assetCount = B.assets.length := by
    rw [hfoot]
    show B.assets.length % 2 ^ 32 = B.assets.length
    exact Nat.mod_eq_of_lt (by omega)
  have hpc : FP.2.pageCount = B.pages.length := by
    rw [hfoot]
    show B.pages.length % 2 ^ 32 = B.pages.length
    exact Nat.mod_eq_of_lt hnp
  have hsc : FP.2.sectionCount = B.sections.length := by
    rw [hfoot]
    show B.sections.length % 2 ^ 32 = B.sections.length
    exact Nat.mod_eq_of_lt hns
  have hkc : FP.2.keyCount = B.metadata.length := by
    rw [hfoot]
    show B.metadata.length % 2 ^ 32 = B.metadata.length
    exact Nat.mod_eq_of_lt hnm
  have heo : FP.2.extraOffset = 0 := by rw [hfoot]
  have hih : FP.2.indexHash = hash (pool ++ AT ++ PT ++ ST ++ MT) := by rw [hfoot]
  -- header slice
  have hfile2 : FP.1 = B.writer ++ (pool ++ (AT ++ (PT ++ (ST ++ (MT ++ serFooter FP.2))))) := by
    simp only [hfile, List.append_assoc]
  have hslhdr : sl FP.1 0 19 = serHeader initHeader := by
    rw [hfile2]
    rw [sl_append_left _ _ 0 19 hw19]
    unfold sl
    rw [List.drop_zero]
    simpa using hR.hdr
  have hmagic1 : (parseHeader (serHeader initHeader)).magic = bbfMagic := by decide
  -- footer slice
  have hQ : FP.1 = (B.writer ++ pool ++ AT ++ PT ++ ST ++ MT) ++ serFooter FP.2 := by
    simp only [hfile, List.append_assoc]
  have hQlen : FP.1.length = (B.writer ++ pool ++ AT ++ PT ++ ST ++ MT).length + 76 := by
    rw [hQ]
    simp only [List.length_append, hF76]
  have hslf : sl FP.1 (FP.1.length - 76) FP.1.length = serFooter FP.2 := by
    rw [hQlen, hQ]
    have he : (B.writer ++ pool ++ AT ++ PT ++ ST ++ MT).length + 76 - 76
        = (B.writer ++ pool ++ AT ++ PT ++ ST ++ MT).length := by omega
    rw [he]
    have h2 := sl_append_exact (B.writer ++ pool ++ AT ++ PT ++ ST ++ MT) (serFooter FP.2)
    rwa [hF76] at h2
  have hpf : parseFooter (serFooter FP.2) = FP.2 := by
    apply parseFooter_serFooter
    · rw [hsp]; omega
    · rw [hat]; omega
    · rw [hac]; omega
    · rw [hpt]; omega
    · rw [hpc]; omega
    · rw [hst]; omega
    · rw [hsc]; omega
    · rw [hmt]; omega
    · rw [hkc]; omega
    · rw [heo]; omega
    · rw [hih]; exact hh _
    · exact hmg
  -- table range checks
  have hc1 : checkRangeE FP.1.length FP.2.assetTableOffset FP.2.assetCount 64 = .ok () := by
    apply checkRangeE_ok_of <;> simp only [hat, hac] <;> omega
  have hc2 : checkRangeE FP.1.length FP.2.pageTableOffset FP.2.pageCount 8 = .ok () := by
    apply checkRangeE_ok_of <;> simp only [hpt, hpc] <;> omega
  have hc3 : checkRangeE FP.1.length FP.2.sectionTableOffset FP.2.sectionCount 12 = .ok () := by
    apply checkRangeE_ok_of <;> simp only [hst, hsc] <;> omega
  have hc4 : checkRangeE FP.1.length FP.2.metaTableOffset FP.2.keyCount 8 = .ok () := by
    apply checkRangeE_ok_of <;> simp only [hmt, hkc] <;> omega
  have hchecks : readerChecks FP.1.length FP.2 = .ok () := by
    unfold readerChecks
    rw [if_neg (by rw [hsp, hat]; omega)]
    simp only [hc1, hc2, hc3, hc4]
  have hfootmk : (mkReader FP.1).footer = FP.2 := by
    unfold mkReader
    rw [hslf, hpf]
  have hrdr : readerNew FP.1 = .ok (mkReader FP.1) := by
    unfold readerNew
    rw [if_neg (by omega)]
    simp only [sliceChecked_of_le FP.1 0 19 (by omega) (by omega)]
    rw [hslhdr]
    rw [if_neg (by simp [hmagic1])]
    simp only [sliceChecked_of_le FP.1 (FP.1.length - 76) FP.1.length (by omega) (le_refl _)]
    rw [hslf, hpf]
    rw [if_neg (by simp [hmg])]
    simp only [hchecks]
    unfold mkReader
    rw [hslhdr, hslf, hpf]
  -- asset table decode
  have hslAT : sl FP.1 FP.2.assetTableOffset
      (FP.2.assetTableOffset + FP.2.assetCount * 64) = AT := by
    have hshape : FP.1 = (B.writer ++ pool) ++ (AT ++ (PT ++ (ST ++ (MT ++ serFooter FP.2)))) := by
      simp only [hfile, List.append_assoc]
    rw [hshape]
    apply sl_exact_at
    · rw [hat]
      simp
    · rw [hac, hATlen]
      omega
  have hasset_rt : ∀ a ∈ B.assets, parseAsset (serAsset a) = a := by
    intro a ha
    obtain ⟨i, hi, hieq⟩ := List.mem_iff_getElem.mp ha
    have hia : a = B.assets.getD i dA := by
      rw [List.getD_eq_getElem B.assets dA hi, hieq]
    obtain ⟨p, hp1, hp2, hp3, hp4, hp5, hp6, hp7, hp8⟩ := hR.assetStore i hi
    rw [← hia] at hp2 hp3 hp4 hp5 hp6 hp7
    apply parseAsset_serAsset
    · omega
    · rw [hp3]
      have : p.length ≤ B.writer.length := by omega
      omega
    · rw [hp4]
      have : p.length ≤ B.writer.length := by omega
      omega
    · rw [hp2]
      exact hh p
    · exact hp5
    · exact hp6
  have hassetsOf : assetsOf (mkReader FP.1) = some B.assets := by
    unfold assetsOf
    rw [hfootmk]
    show (sliceChecked FP.1 FP.2.assetTableOffset
      (FP.2.assetTableOffset + FP.2.assetCount * 64)).map _ = _
    rw [sliceChecked_of_le FP.1 _ _ (by omega) (by simp only [hat, hac]; omega)]
    rw [Option.map_some', hslAT, hac]
    have h2 : parseTable parseAsset 64 AT B.assets.length = B.assets := by
      rw [hAT]
      exact parseTable_concat parseAsset serAsset 64 B.assets
        (fun a _ => serAsset_length a) hasset_rt
    rw [h2]
  -- page table decode
  have hslPT : sl FP.1 FP.2.pageTableOffset
      (FP.2.pageTableOffset + FP.2.pageCount * 8) = PT := by
    have hshape : FP.1 = (B.writer ++ pool ++ AT) ++ (PT ++ (ST ++ (MT ++ serFooter FP.2))) := by
      simp only [hfile, List.append_assoc]
    rw [hshape]
    apply sl_exact_at
    · rw [hpt]
      simp only [List.length_append]
    · rw [hpc, hPTlen]
      omega
  have hpage_rt : ∀ pe ∈ B.pages, parsePage (serPage pe) = pe := by
    intro pe hpe
    obtain ⟨k, hk, hkeq⟩ := List.mem_iff_getElem.mp hpe
    have hkP : k < P.length := by rw [← hR.pagesLen]; exact hk
    have hke : pe = B.pages.getD k dP := by
      rw [List.getD_eq_getElem B.pages dP hk, hkeq]
    apply parsePage_serPage
    · rw [hke]
      have h2 := hR.pageIdxLt k hkP
      omega
    · rw [hke, hR.pageFlags k hkP]
      have hkFL : k < (pageFlagsL ops).length := by rw [hR.flagsLen]; exact hkP
      exact hfl _ (mem_getD_of_lt _ k 0 hkFL)
  have hpagesOf : pagesOf (mkReader FP.1) = some B.pages := by
    unfold pagesOf
    rw [hfootmk]
    show (sliceChecked FP.1 FP.2.pageTableOffset
      (FP.2.pageTableOffset + FP.2.pageCount * 8)).map _ = _
    rw [sliceChecked_of_le FP.1 _ _ (by omega) (by simp only [hpt, hpc]; omega)]
    rw [Option.map_some', hslPT, hpc]
    have h2 : parseTable parsePage 8 PT B.pages.length = B.pages := by
      rw [hPT]
      exact parseTable_concat parsePage serPage 8 B.pages
        (fun a _ => serPage_length a) hpage_rt
    rw [h2]
  -- string pool slice and pool facts
  have hslPool : sl FP.1 FP.2.stringPoolOffset FP.2.assetTableOffset = pool := by
    rw [hfile2]
    have h2 : FP.2.assetTableOffset = FP.2.stringPoolOffset + pool.length := by
      rw [hsp, hat]
    rw [h2]
    apply sl_exact_at
    · rw [hsp]
    · rfl
  have hpoolmap : (sl FP.1 FP.2.stringPoolOffset FP.2.assetTableOffset).map
      (fun b => b % 256) = pool := by
    rw [hslPool]
    exact map_mod_id pool hR.poolBytes
  have hgetStr : ∀ off t, PoolsAt pool off t → validUtf8 t = true → 0 ∉ t →
      getString (mkReader FP.1) off = .ok (some t) := by
    intro off t hpat hu hz
    have h2 := @getString_pool_slice off FP.1 (mkReader FP.1) hrdr
    rw [hfootmk] at h2
    rw [h2, hpoolmap, specGetString_poolsAt pool off t hpat hz hu]
  -- assemble
  refine ⟨hrdr, hpagesOf, hR.pagesLen, ?_, ?_, hR.secsLen, ?_, hR.metaLenK, ?_⟩
  · intro k hk
    have hkP : k < P.length := by rw [← hR.pagesLen]; exact hk
    set idx := (B.pages.getD k dP).assetIndex with hidx
    have hidxA : idx < B.assets.length := hR.pageIdxLt k hkP
    obtain ⟨p, hp1, hp2, hp3, hp4, hp5, hp6, hp7, hp8⟩ := hR.assetStore idx hidxA
    have hpk : p = P.getD k [] := by
      apply hinj p hp1 (P.getD k []) (mem_getD_of_lt _ k [] hkP)
      rw [← hp2]
      exact hR.pageHash k hkP
    have hwlt : B.writer.length < 2 ^ 64 := by omega
    have hdata : (mkReader FP.1).data = FP.1 := rfl
    unfold getAsset
    simp only [hassetsOf]
    rw [if_neg (by omega)]
    have hdA : (⟨0, 0, 0, 0, 0, 0⟩ : AssetEntry) = dA := rfl
    rw [hdA]
    rw [if_neg (by rw [hp3]; push_neg; omega)]
    rw [if_neg (by rw [hp3, hdata]; push_neg; omega)]
    rw [hp3, hdata]
    have hslp : sl FP.1 (B.assets.getD idx dA).offset
        ((B.assets.getD idx dA).offset + p.length) = p := by
      rw [hfile2]
      rw [sl_append_left _ _ _ _ hp7]
      exact hp8
    rw [hslp, hpk]
  · rw [hfootmk, hac, hR.assetCnt]
    exact dedup_map_inj_length hash P hinj
  · intro j hj
    have hjT : j < (sectionTitles ops).length := by rw [← hR.secsLen]; exact hj
    have hmemT : (sectionTitles ops).getD j [] ∈ allStrings ops := by
      unfold allStrings
      exact List.mem_append_left _ (List.mem_append_left _ (mem_getD_of_lt _ j [] hjT))
    exact hgetStr _ _ (hR.secTitle j hjT) (hstr _ hmemT).1 (hstr _ hmemT).2.1
  · intro j hj
    have hjK : j < (metaKeysL ops).length := by rw [← hR.metaLenK]; exact hj
    have hjV : j < (metaValsL ops).length := by rw [← hR.metaLenV]; exact hj
    have hmemK : (metaKeysL ops).getD j [] ∈ allStrings ops := by
      unfold allStrings
      exact List.mem_append_left _ (List.mem_append_right _ (mem_getD_of_lt _ j [] hjK))
    have hmemV : (metaValsL ops).getD j [] ∈ allStrings ops := by
      unfold allStrings
      exact List.mem_append_right _ (mem_getD_of_lt _ j [] hjV)
    exact ⟨hgetStr _ _ (hR.metaKey j hjK) (hstr _ hmemK).1 (hstr _ hmemK).2.1,
      hgetStr _ _ (hR.metaVal j hjV) (hstr _ hmemV).1 (hstr _ hmemV).2.1⟩

/-- Builder calls whose single section title is the one-byte string `[0]`,
a valid UTF-8 Rust `&str` consisting of a NUL byte. -/
def c1ops : List BOp := [BOp.sec [0] 0 none]

def c1file : List Nat := (finalize zeroHash (applyOps zeroHash builderInit c1ops)).1

def c1reader : Reader := mkReader c1file

/-- C1 (counterexample). A section title may be any UTF-8 Rust string,
including one containing a NUL byte, but the string pool is
NUL-terminated: for the title `[0]` the reader constructs fine, yet
`get_string` at the recorded title offset returns the empty string, not
the title passed to `add_section` — the round-trip is not exact for every
builder input. -/
theorem builder_roundtrip_nul_counterexample :
    sectionTitles c1ops = [[0]] ∧
    readerNew c1file = .ok c1reader ∧
    getString c1reader
      (((applyOps zeroHash builderInit c1ops).sections.getD 0 dS).titleOffset)
      = .ok (some []) ∧
    (some ([] : List Nat)) ≠ some ((sectionTitles c1ops).getD 0 []) := by
  refine ⟨rfl, rfl, rfl, by decide⟩

/-- Builder calls for a concrete end-to-end check: one section and one
metadata pair (no page, so no 4 KiB alignment padding inflates the file). -/
def c1wOps : List BOp := [BOp.sec [65] 0 none, BOp.meta [66] [67]]

/-- C1 (witness). The round-trip theorem applied to a concrete build with
one section and one metadata pair. -/
theorem builder_reader_roundtrip_witness :
    readerNew (finalize zeroHash (applyOps zeroHash builderInit c1wOps)).1
      = .ok (mkReader (finalize zeroHash (applyOps zeroHash builderInit c1wOps)).1) ∧
    (mkReader (finalize zeroHash (applyOps zeroHash builderInit c1wOps)).1).footer.assetCount
      = 0 ∧
    getString (mkReader (finalize zeroHash (applyOps zeroHash builderInit c1wOps)).1)
      (((applyOps zeroHash builderInit c1wOps).sections.getD 0 dS).titleOffset)
      = .ok (some [65]) ∧
    getString (mkReader (finalize zeroHash (applyOps zeroHash builderInit c1wOps)).1)
      (((applyOps zeroHash builderInit c1wOps).metadata.getD 0 dM).keyOffset)
      = .ok (some [66]) ∧
    getString (mkReader (finalize zeroHash (applyOps zeroHash builderInit c1wOps)).1)
      (((applyOps zeroHash builderInit c1wOps).metadata.getD 0 dM).valOffset)
      = .ok (some [67]) := by
  have hinjW : ∀ p ∈ pagePayloads c1wOps, ∀ q ∈ pagePayloads c1wOps,
      zeroHash p = zeroHash q → p = q := by
    intro p hp
    exact absurd hp (List.not_mem_nil p)
  have hhW : ∀ l : List Nat, zeroHash l < 2 ^ 64 := by
    intro l
    show 0 < 2 ^ 64
    decide
  have h := builder_reader_roundtrip zeroHash c1wOps hhW hinjW
    (by decide) (by decide) (by decide) (by decide) (by decide) (by decide) (by decide)
  exact ⟨h.1, h.2.2.2.2.1, h.2.2.2.2.2.2.1 0 (by decide),
    (h.2.2.2.2.2.2.2.2 0 (by decide)).1, (h.2.2.2.2.2.2.2.2 0 (by decide)).2⟩

end BBF
